import Mathlib

/-!
# BoTSORT-cpp: motion filter and cost fusion

A shallow embedding of `src/src/KalmanFilter.cpp` and `src/src/matching.cpp`.

* The Kalman filter is embedded over an arbitrary field `α` standing for the
  C++ `float`/`double` values with exact arithmetic (no rounding).  The square
  root used by the Cholesky factorisation is a parameter `sqrt : α → α`.
* The cost matrices of `matching.cpp` hold values that can be `+infinity`
  (the code writes `std::numeric_limits<float>::infinity()` into them), so they
  are embedded over `XFloat`: exact rationals extended with `+inf`, `-inf` and
  `NaN`, with the IEEE-754 rules for the special values.  `fuse_score` and
  `fuse_motion` are embedded twice: with exact operations, and with every
  operation on `float` rounded to binary32 (`fuse_score32`, `fuse_motion32`).
* Vectors and matrices of a fixed-size type are functions on `Fin n`.  The Eigen
  objects that `predict`, `project` and `gating_distance` size at run time
  (`Eigen::VectorXf`, the argument of the triangular solve) carry their sizes
  (`Dense`), and an operation on them whose size check fails yields no value:
  these functions, and `update`, which calls `project`, are embedded as written
  in the namespace `byte_kalman`.
* Loop counters are natural numbers; a counter of type `uint8_t` is reduced
  modulo 256 where it can reach 256 (`gating_distance`).  A loop that may not
  end is given fuel and returns an `Option`.
-/

namespace BoTSORT

open Matrix

/-! ## Data types (`DataType.h`, not part of the sources: fixed sizes 8 and 4) -/

/-- State-space vector `[x, y, w, h, vx, vy, vw, vh]`. -/
abbrev KFStateSpaceVec (α : Type) := Fin 8 → α

/-- State-space covariance, 8 x 8. -/
abbrev KFStateSpaceMatrix (α : Type) := Matrix (Fin 8) (Fin 8) α

/-- Measurement-space vector `[x, y, w, h]`. -/
abbrev KFMeasSpaceVec (α : Type) := Fin 4 → α

/-- Measurement-space covariance, 4 x 4. -/
abbrev KFMeasSpaceMatrix (α : Type) := Matrix (Fin 4) (Fin 4) α

/-- Detection vector: four components. -/
abbrev DetVec (α : Type) := Fin 4 → α

/-! ## `KalmanFilter` -/

/-- The members of `byte_kalman::KalmanFilter` that `KalmanFilter.cpp` reads. -/
structure KalmanFilter (α : Type) where
  _std_weight_position : α
  _std_weight_velocity : α
  _measurement_matrix : Matrix (Fin 4) (Fin 8) α
  _state_transition_matrix : Matrix (Fin 8) (Fin 8) α

/-- Assignment `M(a, b) = v` on a fixed-size matrix. -/
def setCoeff {m n : ℕ} {α : Type} (M : Matrix (Fin m) (Fin n) α) (a b : ℕ) (v : α) :
    Matrix (Fin m) (Fin n) α :=
  fun i j => if i.val = a ∧ j.val = b then v else M i j

/-- The matrix `Eigen::MatrixXf::Identity(m, n)`: ones on the main diagonal. -/
def identity (m n : ℕ) (α : Type) [Zero α] [One α] : Matrix (Fin m) (Fin n) α :=
  fun i j => if i.val = j.val then 1 else 0

/-- The function `KalmanFilter::_init_kf_matrices`: the measurement matrix is
`Identity(4, 8)`; the state transition matrix is `Identity(8, 8)` with
`(i, i + 4) = dt` written by the loop `for i in 0..3`. -/
def _init_kf_matrices {α : Type} [Zero α] [One α] (dt : α) :
    Matrix (Fin 4) (Fin 8) α × Matrix (Fin 8) (Fin 8) α :=
  (identity 4 8 α,
   (List.range 4).foldl (fun M i => setCoeff M i (i + 4) dt) (identity 8 8 α))

/-- The constructor `KalmanFilter::KalmanFilter(dt)`. -/
def KalmanFilter.new {α : Type} [Field α] (dt : α) : KalmanFilter α :=
  { _std_weight_position := 1 / 20
    _std_weight_velocity := 1 / 160
    _measurement_matrix := (_init_kf_matrices dt).1
    _state_transition_matrix := (_init_kf_matrices dt).2 }

/-- The table `KalmanFilter::chi2inv95`. -/
def chi2inv95 : List ℚ :=
  [0, 3.8415, 5.9915, 7.8147, 9.4877, 11.070, 12.592, 14.067, 15.507, 16.919]

/-- The function `KalmanFilter::init`.  The two loops `for (uint8_t i = 0; i < 8; i++)`
assign every component once, from `i` alone. -/
def KalmanFilter.init {α : Type} [Field α] (kf : KalmanFilter α) (measurement : DetVec α) :
    KFStateSpaceVec α × KFStateSpaceMatrix α :=
  let init_velocity : α := 0
  let mean_state_space : KFStateSpaceVec α :=
    fun i => if h : i.val < 4 then measurement ⟨i.val, h⟩ else init_velocity
  let w := measurement 2
  let h := measurement 3
  let std : KFStateSpaceVec α := fun i =>
    if i.val < 4 then 2 * kf._std_weight_position * (if i.val % 2 = 0 then w else h)
    else 10 * kf._std_weight_velocity * (if i.val % 2 = 0 then w else h)
  let std_squared : KFStateSpaceVec α := fun i => std i * std i
  let covariance : KFStateSpaceMatrix α := Matrix.diagonal std_squared
  (mean_state_space, covariance)

/-- The values that `KalmanFilter::project` is written to compute, with the sizes of
all operands conforming: `innovation_cov` is read as the diagonal matrix of its squared
coefficients.  This is not the function as written, which is `byte_kalman.project`
below and returns nothing; it gives the loop of `gating_distance` (`fillDiff`) the
projected mean that it subtracts. -/
def KalmanFilter.project {α : Type} [Field α] (kf : KalmanFilter α)
    (mean : KFStateSpaceVec α) (covariance : KFStateSpaceMatrix α) :
    KFMeasSpaceVec α × KFMeasSpaceMatrix α :=
  let innovation_cov : Fin 4 → α :=
    ![kf._std_weight_position * mean 2, kf._std_weight_position * mean 3,
      kf._std_weight_position * mean 2, kf._std_weight_position * mean 3]
  let innovation_cov : Fin 4 → α := fun i => innovation_cov i * innovation_cov i
  let innovation_cov : KFMeasSpaceMatrix α := Matrix.diagonal innovation_cov
  let mean_updated : KFMeasSpaceVec α := kf._measurement_matrix *ᵥ mean
  let covariance_updated : KFMeasSpaceMatrix α :=
    kf._measurement_matrix * covariance * kf._measurement_matrixᵀ + innovation_cov
  (mean_updated, covariance_updated)

/-! ### Eigen's `LLT` (library code): textbook Cholesky factorisation and triangular solves -/

/-- What is left of a matrix after its first column has been factored out with
pivot root `l`: the trailing block minus the outer product of the scaled column. -/
def cholTrailing {α : Type} [Field α] {n : ℕ} (A : Matrix (Fin (n + 1)) (Fin (n + 1)) α) (l : α) :
    Matrix (Fin n) (Fin n) α :=
  fun i j => A i.succ j.succ - (A i.succ 0 / l) * (A j.succ 0 / l)

/-- The lower factor `A.llt().matrixL()`: the pivot is the square root of the leading
entry, the column below it is divided by the pivot, and the trailing block is
factored after the rank-one downdate.  Only the lower triangle of `A` is read. -/
def cholesky {α : Type} [Field α] (sqrt : α → α) :
    (n : ℕ) → Matrix (Fin n) (Fin n) α → Matrix (Fin n) (Fin n) α
  | 0, A => A
  | n + 1, A =>
    let l := sqrt (A 0 0)
    let rest := cholesky sqrt n (cholTrailing A l)
    fun i j =>
      Fin.cases (Fin.cases l (fun _ => 0) j)
        (fun i' => Fin.cases (A i'.succ 0 / l) (fun j' => rest i' j') j) i

/-- Solve `L y = b` for lower-triangular `L` by forward substitution
(`triangularView<Eigen::Lower>().solve`); only the lower triangle of `L` is read. -/
def forwardSubst {α : Type} [Field α] :
    (n : ℕ) → Matrix (Fin n) (Fin n) α → (Fin n → α) → Fin n → α
  | 0, _, b => b
  | n + 1, L, b =>
    let y0 := b 0 / L 0 0
    Fin.cons y0
      (forwardSubst n (fun i j => L i.succ j.succ) (fun i => b i.succ - L i.succ 0 * y0))

/-- Solve `U x = b` for upper-triangular `U` by back substitution; only the upper
triangle of `U` is read. -/
def backSubst {α : Type} [Field α] :
    (n : ℕ) → Matrix (Fin n) (Fin n) α → (Fin n → α) → Fin n → α
  | 0, _, b => b
  | n + 1, U, b =>
    let rest := backSubst n (fun i j => U i.succ j.succ) (fun i => b i.succ)
    Fin.cons ((b 0 - ∑ j, U 0 j.succ * rest j) / U 0 0) rest

/-- The call `S.llt().solve(B)`: factor `S = L Lᵀ`, then for every column of `B` a
forward substitution with `L` followed by a back substitution with `Lᵀ`. -/
def lltSolve {α : Type} [Field α] (sqrt : α → α) {n k : ℕ}
    (S : Matrix (Fin n) (Fin n) α) (B : Matrix (Fin n) (Fin k) α) : Matrix (Fin n) (Fin k) α :=
  let L := cholesky sqrt n S
  fun i c => backSubst n Lᵀ (forwardSubst n L (fun r => B r c)) i

/-- The loop `for (uint8_t i = 0; i < measurements.size(); i++) diff.row(i) = ...` of
`gating_distance`.  The counter is an 8-bit unsigned integer, so `i++` is
`(i + 1) % 256`; the comparison is made in `size_t`.  `fuel` bounds the number of
loop tests; `none` means the loop has not finished within `fuel` tests. -/
def fillDiff {α : Type} [Field α] (measurements : List (DetVec α)) (projected_mean : KFMeasSpaceVec α) :
    (fuel : ℕ) → (i : ℕ) → List (Fin 4 → α) → Option (List (Fin 4 → α))
  | 0, _, _ => none
  | fuel + 1, i, diff =>
    if i < measurements.length then
      fillDiff measurements projected_mean fuel ((i + 1) % 256)
        (diff.set i (measurements.getD i 0 - projected_mean))
    else some diff

/-- The loop of `KalmanFilter::gating_distance` (the three-argument function of
`KalmanFilter.cpp`) as written, `fillDiff`, between the projection and the distance
computed with conforming sizes: one triangular solve per row of `diff`, the squared
components of each solution summed.  The function as written, in which `project` and
the solve on the whole of `diff` fail, is `byte_kalman.gating_distance` below. -/
def KalmanFilter.gating_distance {α : Type} [Field α] (kf : KalmanFilter α) (sqrt : α → α)
    (fuel : ℕ) (mean : KFStateSpaceVec α) (covariance : KFStateSpaceMatrix α)
    (measurements : List (DetVec α)) : Option (List α) :=
  let projected := kf.project mean covariance
  let projected_mean := projected.1
  let projected_covariance := projected.2
  match fillDiff measurements projected_mean fuel 0 (List.replicate measurements.length 0) with
  | none => none
  | some diff =>
    let cholesky_factor := cholesky sqrt 4 projected_covariance
    let mahalanobis_distance := diff.map (fun d => forwardSubst 4 cholesky_factor d)
    let mahalanobis_distance_squared := mahalanobis_distance.map (fun y => fun c => y c * y c)
    some (mahalanobis_distance_squared.map (fun y => ∑ c, y c))

/-! ### The filter functions as written: Eigen objects with their run-time sizes -/

/-- An Eigen object together with its size (`Eigen::VectorXf`, and any expression whose
size matters for a check of Eigen): its dimensions and its coefficients.  Only the
coefficients `(i, j)` with `i < rows` and `j < cols` belong to the object. -/
structure Dense (α : Type) where
  rows : ℕ
  cols : ℕ
  coeff : ℕ → ℕ → α

namespace Dense

variable {α : Type}

/-- The declaration `Eigen::VectorXf v(n)`, and `Eigen::VectorXf v` for `n = 0`: a column
of `n` coefficients, not yet initialised (zero here). -/
def vectorXf [Zero α] (n : ℕ) : Dense α :=
  { rows := n, cols := 1, coeff := fun _ _ => 0 }

/-- The comma initialiser `v << x0, x1, ...`: the coefficients are filled row by row;
Eigen checks that exactly `v.size()` of them are given. -/
def commaInit [Zero α] (v : Dense α) (xs : List α) : Option (Dense α) :=
  if xs.length = v.rows * v.cols then
    some { v with coeff := fun i j => xs.getD (i * v.cols + j) 0 }
  else none

/-- The assignment `v.block(startRow, startCol, blockRows, blockCols) = src`.  `block`
checks that the block lies inside `v`, the assignment that `src` has the size of the
block. -/
def assignBlock (v : Dense α) (startRow startCol blockRows blockCols : ℕ) (src : Dense α) :
    Option (Dense α) :=
  if startRow + blockRows ≤ v.rows ∧ startCol + blockCols ≤ v.cols ∧
      src.rows = blockRows ∧ src.cols = blockCols then
    some
      { rows := v.rows
        cols := v.cols
        coeff := fun i j =>
          (if startRow ≤ i ∧ i < startRow + blockRows ∧
              startCol ≤ j ∧ j < startCol + blockCols then
            src.coeff (i - startRow) (j - startCol)
          else v.coeff i j) }
  else none

/-- The expression `v.array().square()`. -/
def square [Mul α] (v : Dense α) : Dense α :=
  { v with coeff := fun i j => v.coeff i j * v.coeff i j }

/-- The coefficient `v(k)` of a vector, stored as a column or as a row. -/
def vecCoeff (v : Dense α) (k : ℕ) : α :=
  if v.cols = 1 then v.coeff k 0 else v.coeff 0 k

/-- The expression `v.asDiagonal()` of a vector `v`: the square matrix of dimension
`v.size()` with `v` on its diagonal. -/
def asDiagonal [Zero α] (v : Dense α) : Dense α :=
  { rows := v.rows * v.cols, cols := v.rows * v.cols
    coeff := fun i j => if i = j then v.vecCoeff i else 0 }

/-- The assignment `v = src` to a variable `v` of type `Eigen::VectorXf`: `v` is resized
to the number of coefficients of `src`; Eigen checks that `src` has one row or one
column. -/
def assignVectorXf (src : Dense α) : Option (Dense α) :=
  if src.rows = 1 ∨ src.cols = 1 then
    some { rows := src.rows * src.cols, cols := 1, coeff := fun i _ => src.vecCoeff i }
  else none

/-- A fixed-size matrix as an object with its size. -/
def ofMatrix [Zero α] {m n : ℕ} (M : Matrix (Fin m) (Fin n) α) : Dense α :=
  { rows := m, cols := n
    coeff := fun i j => if h : i < m ∧ j < n then M ⟨i, h.1⟩ ⟨j, h.2⟩ else 0 }

/-- A fixed-size vector of `n` coefficients as an object with its size.  The state and
measurement vectors are rows, 1 x `n`: `update` adds the 1 x 8 product
`innovation * kalman_gain.transpose()` to `mean`, and declares `innovation`, the
difference of a measurement and a projected mean, as `Eigen::Matrix<float, 1, 4>`. -/
def ofRow [Zero α] {n : ℕ} (v : Fin n → α) : Dense α :=
  { rows := 1, cols := n, coeff := fun _ j => if h : j < n then v ⟨j, h⟩ else 0 }

/-- The assignment of an object to a matrix of fixed size `m x n`: the sizes must
agree. -/
def toMatrix (m n : ℕ) (d : Dense α) : Option (Matrix (Fin m) (Fin n) α) :=
  if d.rows = m ∧ d.cols = n then some (fun i j => d.coeff i j) else none

/-- The assignment of an object to a vector of fixed size `n`: the object must be a
vector of `n` coefficients, a row or a column. -/
def toVec (n : ℕ) (d : Dense α) : Option (Fin n → α) :=
  if (d.rows = 1 ∧ d.cols = n) ∨ (d.rows = n ∧ d.cols = 1) then
    some (fun i => d.vecCoeff i)
  else none

/-- The sum `a + b`: Eigen checks that the two operands have the same size. -/
def add [Add α] (a b : Dense α) : Option (Dense α) :=
  if a.rows = b.rows ∧ a.cols = b.cols then
    some { rows := a.rows, cols := a.cols, coeff := fun i j => a.coeff i j + b.coeff i j }
  else none

/-- The product `a * b`: Eigen checks that `a` has as many columns as `b` has rows. -/
def mul [Mul α] [AddCommMonoid α] (a b : Dense α) : Option (Dense α) :=
  if a.cols = b.rows then
    some
      { rows := a.rows
        cols := b.cols
        coeff := fun i j => ∑ k in Finset.range a.cols, a.coeff i k * b.coeff k j }
  else none

end Dense

namespace byte_kalman

/-- The function `KalmanFilter::predict` as written, with the sizes of its Eigen
objects; the pair returned is the new content of the two reference parameters.
`none`: a size check of Eigen fails and the function produces no value (with the checks
compiled out the access lies outside the object).  `std_combined` is declared without a
size and is not resized, so it has no coefficient when the two blocks are assigned. -/
def predict {α : Type} [Field α] (kf : KalmanFilter α)
    (mean : KFStateSpaceVec α) (covariance : KFStateSpaceMatrix α) :
    Option (KFStateSpaceVec α × KFStateSpaceMatrix α) := do
  let std_pos ← (Dense.vectorXf 4).commaInit
    [kf._std_weight_position * mean 2, kf._std_weight_position * mean 3,
      kf._std_weight_position * mean 2, kf._std_weight_position * mean 3]
  let std_vel ← (Dense.vectorXf 4).commaInit
    [kf._std_weight_velocity * mean 2, kf._std_weight_velocity * mean 3,
      kf._std_weight_velocity * mean 2, kf._std_weight_velocity * mean 3]
  let std_combined : Dense α := Dense.vectorXf 0
  let std_combined ← std_combined.assignBlock 0 0 4 1 std_pos
  let std_combined ← std_combined.assignBlock 4 0 4 1 std_vel
  let std_combined ← Dense.assignVectorXf std_combined.square
  let motion_cov ← std_combined.asDiagonal.toMatrix 8 8
  let mean_new ← (Dense.ofMatrix kf._state_transition_matrix).mul (Dense.ofRow mean)
  let mean_new ← mean_new.toVec 8
  some (mean_new,
    kf._state_transition_matrix * covariance * kf._state_transition_matrixᵀ + motion_cov)

/-- The function `KalmanFilter::project` as written, with the sizes of its Eigen
objects.  `innovation_cov` is an `Eigen::VectorXf`: it is assigned its own
`asDiagonal()`, a 4 x 4 object, and is then added to the 4 x 4 product.  `none`: a size
check of Eigen fails and the function produces no value. -/
def project {α : Type} [Field α] (kf : KalmanFilter α)
    (mean : KFStateSpaceVec α) (covariance : KFStateSpaceMatrix α) :
    Option (KFMeasSpaceVec α × KFMeasSpaceMatrix α) := do
  let innovation_cov ← (Dense.vectorXf 4).commaInit
    [kf._std_weight_position * mean 2, kf._std_weight_position * mean 3,
      kf._std_weight_position * mean 2, kf._std_weight_position * mean 3]
  let innovation_cov ← Dense.assignVectorXf innovation_cov.square
  let innovation_cov ← Dense.assignVectorXf innovation_cov.asDiagonal
  let mean_updated ← (Dense.ofMatrix kf._measurement_matrix).mul (Dense.ofRow mean)
  let mean_updated ← mean_updated.toVec 4
  let covariance_updated ←
    (Dense.ofMatrix (kf._measurement_matrix * covariance * kf._measurement_matrixᵀ)).add
      innovation_cov
  let covariance_updated ← covariance_updated.toMatrix 4 4
  some (mean_updated, covariance_updated)

/-- The function `KalmanFilter::update` as written: it starts with a call of `project`
and goes on with fixed-size objects whose sizes conform. -/
def update {α : Type} [Field α] (kf : KalmanFilter α) (sqrt : α → α)
    (mean : KFStateSpaceVec α) (covariance : KFStateSpaceMatrix α) (measurement : DetVec α) :
    Option (KFStateSpaceVec α × KFStateSpaceMatrix α) := do
  let projected ← project kf mean covariance
  let projected_mean := projected.1
  let projected_covariance := projected.2
  let B : Matrix (Fin 4) (Fin 8) α := (covariance * kf._measurement_matrixᵀ)ᵀ
  let kalman_gain : Matrix (Fin 8) (Fin 4) α := (lltSolve sqrt projected_covariance B)ᵀ
  let innovation : Fin 4 → α := measurement - projected_mean
  let mean_updated : KFStateSpaceVec α := mean + innovation ᵥ* kalman_gainᵀ
  let covariance_updated : KFStateSpaceMatrix α :=
    covariance - kalman_gain * projected_covariance * kalman_gainᵀ
  some (mean_updated, covariance_updated)

/-- The function `KalmanFilter::gating_distance` as written: a call of `project`, the
loop that fills `diff` (`fillDiff`), and the triangular solve.  `diff` is built with
`measurements.size()` rows and 4 columns and is passed whole to `solve`, which checks
that it has as many rows as the 4 x 4 factor and solves for its columns. -/
def gating_distance {α : Type} [Field α] (kf : KalmanFilter α) (sqrt : α → α)
    (fuel : ℕ) (mean : KFStateSpaceVec α) (covariance : KFStateSpaceMatrix α)
    (measurements : List (DetVec α)) : Option (List α) := do
  let projected ← project kf mean covariance
  let projected_mean := projected.1
  let projected_covariance := projected.2
  let diff ← fillDiff measurements projected_mean fuel 0 (List.replicate measurements.length 0)
  let cholesky_factor := cholesky sqrt 4 projected_covariance
  let diff ← (Dense.mk diff.length 4 (fun i j =>
    if h : j < 4 then (diff.getD i 0) ⟨j, h⟩ else 0)).toMatrix 4 4
  let mahalanobis_distance : Matrix (Fin 4) (Fin 4) α :=
    (fun r c => forwardSubst 4 cholesky_factor (fun k => diff k c) r)ᵀ
  let mahalanobis_distance_squared : Matrix (Fin 4) (Fin 4) α :=
    fun i k => mahalanobis_distance i k * mahalanobis_distance i k
  some (List.ofFn (fun i => ∑ k, mahalanobis_distance_squared i k))

end byte_kalman

/-! ### The four-argument `gating_distance` -/

/-- The first two of the four measurement dimensions (`x`, `y`). -/
def positionDim (i : Fin 2) : Fin 4 := Fin.castLE (by decide) i

/-- The first two components of a measurement-space vector. -/
def positionPart {α : Type} (v : Fin 4 → α) : Fin 2 → α := fun i => v (positionDim i)

/-- The top-left 2 x 2 block of a measurement-space matrix. -/
def positionBlock {α : Type} (S : Matrix (Fin 4) (Fin 4) α) : Matrix (Fin 2) (Fin 2) α :=
  fun i j => S (positionDim i) (positionDim j)

namespace Spec

/-- Modelled from the spec: the projection with which the four-argument
`gating_distance` starts, in the words of the specification: `mean_meas = H·mean`,
`covariance_meas = H·covariance·Hᵗ + innovationNoise`, `innovationNoise` diagonal with
std = `std_weight_position * {w,h,w,h}` squared. -/
def project {α : Type} [Field α] (kf : KalmanFilter α)
    (mean : KFStateSpaceVec α) (covariance : KFStateSpaceMatrix α) :
    KFMeasSpaceVec α × KFMeasSpaceMatrix α :=
  let std : Fin 4 → α :=
    ![kf._std_weight_position * mean 2, kf._std_weight_position * mean 3,
      kf._std_weight_position * mean 2, kf._std_weight_position * mean 3]
  let innovationNoise : KFMeasSpaceMatrix α := Matrix.diagonal (fun i => std i * std i)
  (kf._measurement_matrix *ᵥ mean,
    kf._measurement_matrix * covariance * kf._measurement_matrixᵀ + innovationNoise)

/-- Modelled from the spec: the four-argument
`gating_distance(mean, covariance, measurements, only_position)` that `fuse_motion`
calls.  `KalmanFilter.cpp` defines `gating_distance` with three parameters only, and the
class declaration (`KalmanFilter.h`) is not part of the sources, so the function that
takes the mode is missing.  In the words of the specification: project the state,
Cholesky-factor the projected covariance, solve the lower-triangular system against
each (measurement - projected mean), sum squared components per row; the "only
position" mode restricts both projection and distance to the first 2 measurement
dimensions (x, y only). -/
def gating_distance {α : Type} [Field α] (kf : KalmanFilter α) (sqrt : α → α)
    (mean : KFStateSpaceVec α) (covariance : KFStateSpaceMatrix α)
    (measurements : List (DetVec α)) (only_position : Bool) : List α :=
  let projected := project kf mean covariance
  if only_position then
    let projected_mean := positionPart projected.1
    let projected_covariance := positionBlock projected.2
    let cholesky_factor := cholesky sqrt 2 projected_covariance
    measurements.map (fun z =>
      let y := forwardSubst 2 cholesky_factor (positionPart z - projected_mean)
      ∑ c, y c * y c)
  else
    let cholesky_factor := cholesky sqrt 4 projected.2
    measurements.map (fun z =>
      let y := forwardSubst 4 cholesky_factor (z - projected.1)
      ∑ c, y c * y c)

end Spec

/-! ### Properties of covariance matrices -/

/-- Symmetric positive-definite. -/
def IsPosDef {α : Type} [LinearOrderedField α] {n : ℕ} (M : Matrix (Fin n) (Fin n) α) : Prop :=
  M.IsSymm ∧ ∀ x : Fin n → α, x ≠ 0 → 0 < x ⬝ᵥ M *ᵥ x

/-- Exactness of the square root on positive arguments. -/
def SqrtExact {α : Type} [LinearOrderedField α] (sqrt : α → α) : Prop :=
  ∀ x : α, 0 < x → sqrt x * sqrt x = x

/-! ## Cost matrices (`src/src/matching.cpp`) -/

/-- A C++ `float` as it occurs in a cost matrix: a finite value (exact, no rounding),
`+infinity`, `-infinity` or `NaN`. -/
inductive XFloat where
  | fin (q : ℚ)
  | pinf
  | ninf
  | nan
  deriving DecidableEq, Inhabited

namespace XFloat

/-- IEEE-754 negation. -/
def neg : XFloat → XFloat
  | fin q => fin (-q)
  | pinf => ninf
  | ninf => pinf
  | nan => nan

/-- IEEE-754 addition: `NaN` propagates, `inf + (-inf)` is `NaN`. -/
def add : XFloat → XFloat → XFloat
  | nan, _ => nan
  | _, nan => nan
  | fin a, fin b => fin (a + b)
  | pinf, ninf => nan
  | ninf, pinf => nan
  | pinf, _ => pinf
  | _, pinf => pinf
  | ninf, _ => ninf
  | _, ninf => ninf

/-- IEEE-754 subtraction. -/
def sub (a b : XFloat) : XFloat := add a (neg b)

/-- The product of an infinity of the given sign (`true` for `+`) with a finite value:
`NaN` for zero, otherwise the infinity of the product of the signs. -/
def infMul (positive : Bool) (q : ℚ) : XFloat :=
  if q = 0 then nan
  else if 0 < q then (if positive then pinf else ninf)
  else (if positive then ninf else pinf)

/-- IEEE-754 multiplication: `NaN` propagates, `0 * inf` is `NaN`. -/
def mul : XFloat → XFloat → XFloat
  | nan, _ => nan
  | _, nan => nan
  | fin a, fin b => fin (a * b)
  | pinf, fin b => infMul true b
  | ninf, fin b => infMul false b
  | fin a, pinf => infMul true a
  | fin a, ninf => infMul false a
  | pinf, pinf => pinf
  | ninf, ninf => pinf
  | pinf, ninf => ninf
  | ninf, pinf => ninf

/-- The comparison `a < b` of IEEE-754: false when either side is `NaN`. -/
def lt : XFloat → XFloat → Bool
  | nan, _ => false
  | _, nan => false
  | fin a, fin b => decide (a < b)
  | ninf, ninf => false
  | ninf, _ => true
  | _, ninf => false
  | pinf, _ => false
  | fin _, pinf => true

/-- The comparison `a <= b` of IEEE-754: false when either side is `NaN`. -/
def le : XFloat → XFloat → Bool
  | nan, _ => false
  | _, nan => false
  | fin a, fin b => decide (a ≤ b)
  | ninf, _ => true
  | _, pinf => true
  | pinf, _ => false
  | fin _, ninf => false

instance : Add XFloat := ⟨add⟩

instance : Sub XFloat := ⟨sub⟩

instance : Mul XFloat := ⟨mul⟩

instance : Neg XFloat := ⟨neg⟩

end XFloat

/-- An `Eigen::MatrixXf` cost matrix: its dimensions and its coefficients; only the
coefficients `(i, j)` with `i < rows` and `j < cols` belong to the matrix. -/
structure CostMatrix where
  rows : ℕ
  cols : ℕ
  coeff : ℕ → ℕ → XFloat

/-- The assignment `cost_matrix(i, j) = v`. -/
def CostMatrix.set (m : CostMatrix) (i j : ℕ) (v : XFloat) : CostMatrix :=
  { m with coeff := fun a b => if a = i ∧ b = j then v else m.coeff a b }

/-- The members of `Track` that `matching.cpp` reads. -/
structure Track where
  mean : KFStateSpaceVec XFloat
  covariance : KFStateSpaceMatrix XFloat
  smooth_feat : List XFloat
  curr_feat : List XFloat
  _tlwh : Fin 4 → XFloat
  _score : XFloat
  deriving Inhabited

/-- Modelled from the spec: the getter `get_tlwh` is called by `matching.cpp` but declared
nowhere in the sources; it returns the stored top-left-width-height box. -/
def Track.get_tlwh (t : Track) : Fin 4 → XFloat := t._tlwh

/-- Modelled from the spec: the getter `get_score` is called by `matching.cpp` but
declared nowhere in the sources; it returns the detection score. -/
def Track.get_score (t : Track) : XFloat := t._score

/-- The read `detections[j]->get_score()`.  Reading past the end of the vector is
undefined in C++; the model yields `NaN` there. -/
def scoreAt (detections : List Track) (j : ℕ) : XFloat :=
  match detections[j]? with
  | some d => d.get_score
  | none => XFloat.nan

/-- The threshold of `fuse_motion`: `chi2inv95[gating_dim]` with
`gating_dim = only_position ? 2 : 4`. -/
def gating_threshold (only_position : Bool) : ℚ :=
  let gating_dim := if only_position then 2 else 4
  chi2inv95.getD gating_dim 0

/-- The body of the inner loop of `fuse_motion` for track `i` and column `j`, with `d`
the gating distance `gating_distance(0, j)`. -/
def fuseMotionCell (gating_threshold : ℚ) (lambda : XFloat) (cm : CostMatrix) (i j : ℕ)
    (d : XFloat) : CostMatrix :=
  let cm := if XFloat.lt (XFloat.fin gating_threshold) d then cm.set i j XFloat.pinf else cm
  cm.set i j (lambda * cm.coeff i j + (XFloat.fin 1 - lambda) * d)

/-- The function `fuse_motion`; the result is the new content of `cost_matrix`.  The
four-argument `KF.gating_distance(mean, covariance, measurements, only_position)` that
it calls is not defined in the sources and is the parameter `gating_distance`; it
returns the row of distances. -/
def fuse_motion
    (gating_distance : KFStateSpaceVec XFloat → KFStateSpaceMatrix XFloat →
      List (DetVec XFloat) → Bool → List XFloat)
    (cost_matrix : CostMatrix) (tracks detections : List Track) (only_position : Bool)
    (lambda : XFloat) : CostMatrix :=
  if cost_matrix.rows = 0 ∨ cost_matrix.cols = 0 then cost_matrix
  else
    let gating_threshold := gating_threshold only_position
    let measurements : List (DetVec XFloat) := detections.map (fun detection =>
      let det_xywh := detection.get_tlwh
      ![det_xywh 0, det_xywh 1, det_xywh 2, det_xywh 3])
    (List.range tracks.length).foldl (fun cm i =>
      let gating_distance := gating_distance (tracks.getD i default).mean
        (tracks.getD i default).covariance measurements only_position
      (List.range gating_distance.length).foldl (fun cm j =>
        fuseMotionCell gating_threshold lambda cm i j (gating_distance.getD j XFloat.nan))
        cm) cost_matrix

/-- The row of gating distances `fuse_motion` obtains for track `i`. -/
def gatingRow
    (gating_distance : KFStateSpaceVec XFloat → KFStateSpaceMatrix XFloat →
      List (DetVec XFloat) → Bool → List XFloat)
    (tracks detections : List Track) (only_position : Bool) (i : ℕ) : List XFloat :=
  gating_distance (tracks.getD i default).mean (tracks.getD i default).covariance
    (detections.map (fun detection =>
      let det_xywh := detection.get_tlwh
      ![det_xywh 0, det_xywh 1, det_xywh 2, det_xywh 3])) only_position

/-- A call of `fuse_motion` that stays within the bounds of its arguments: one track per
row of the cost matrix, one detection per column, and one gating distance per
detection for every track. -/
def FuseMotionInBounds
    (gating_distance : KFStateSpaceVec XFloat → KFStateSpaceMatrix XFloat →
      List (DetVec XFloat) → Bool → List XFloat)
    (cost_matrix : CostMatrix) (tracks detections : List Track) (only_position : Bool) : Prop :=
  tracks.length = cost_matrix.rows ∧ detections.length = cost_matrix.cols ∧
    ∀ i, i < tracks.length →
      (gatingRow gating_distance tracks detections only_position i).length = detections.length

/-- Example input: a track or detection with the box `tlwh = [11, 11, 20, 20]` and the
given score. -/
def exampleTrack (score : XFloat) : Track :=
  { mean := fun _ => XFloat.fin 0
    covariance := fun _ _ => XFloat.fin 0
    smooth_feat := []
    curr_feat := []
    _tlwh := ![XFloat.fin 11, XFloat.fin 11, XFloat.fin 20, XFloat.fin 20]
    _score := score }

/-- Example input: the 1 x 1 cost matrix with the single entry `c`. -/
def exampleMatrix (c : XFloat) : CostMatrix :=
  { rows := 1, cols := 1, coeff := fun _ _ => c }

/-- Example input: a gating-distance function that reports the distance `d` for every
measurement. -/
def exampleGating (d : XFloat) : KFStateSpaceVec XFloat → KFStateSpaceMatrix XFloat →
    List (DetVec XFloat) → Bool → List XFloat :=
  fun _ _ measurements _ => measurements.map (fun _ => d)

/-! ### The `float` arithmetic of `fuse_score` and `fuse_motion` in binary32

Round to nearest, ties to even, with gradual underflow and overflow to infinity.  Every
operation is rounded on its own (no fused multiply-add, no excess precision); the sign
of a zero is not modelled. -/

/-- Round to the nearest integer, ties to the even one. -/
def roundHalfEven (m : ℚ) : ℤ :=
  if m - ⌊m⌋ < 1 / 2 then ⌊m⌋
  else if 1 / 2 < m - ⌊m⌋ then ⌊m⌋ + 1
  else if ⌊m⌋ % 2 = 0 then ⌊m⌋ else ⌊m⌋ + 1

/-- The exponent of the binary32 binade of `q`: `⌊log₂ |q|⌋`, at least `-126`
(below `2^-126` the values are subnormal and share the spacing of the lowest binade). -/
def binade (q : ℚ) : ℤ := if q = 0 then -126 else max (Int.log 2 |q|) (-126)

/-- The spacing of the binary32 values around `q`: 24 significant bits. -/
def ulp32 (q : ℚ) : ℚ := (2 : ℚ) ^ (binade q - 23)

/-- The nearest point of the binary32 grid around `q`, before the overflow test. -/
def nearest32 (q : ℚ) : ℚ := roundHalfEven (q / ulp32 q) * ulp32 q

/-- Rounding of an exact result to binary32 (round to nearest, ties to even): a result
of magnitude `2^128` or more after rounding overflows to an infinity.  The sign of a
zero is not modelled. -/
def round32 (q : ℚ) : XFloat :=
  if 2 ^ 128 ≤ nearest32 q then XFloat.pinf
  else if nearest32 q ≤ -2 ^ 128 then XFloat.ninf
  else XFloat.fin (nearest32 q)

/-- The value is a binary32 value: rounding leaves it unchanged. -/
def IsBinary32 (q : ℚ) : Prop := round32 q = XFloat.fin q

instance : DecidablePred IsBinary32 := fun q => by unfold IsBinary32; infer_instance

/-- The binary32 value of an exact result: a finite result is rounded, an infinity or
`NaN` is kept. -/
def XFloat.round : XFloat → XFloat
  | XFloat.fin q => round32 q
  | x => x

/-- The binary32 sum `a + b`: the exact sum, rounded. -/
def XFloat.add32 (a b : XFloat) : XFloat := (a + b).round

/-- The binary32 difference `a - b`: the exact difference, rounded. -/
def XFloat.sub32 (a b : XFloat) : XFloat := (a - b).round

/-- The binary32 product `a * b`: the exact product, rounded. -/
def XFloat.mul32 (a b : XFloat) : XFloat := (a * b).round

/-- The function `fuse_score` with every operation on `float` carried out in binary32
(`fuse_score` above is the same function with exact operations). -/
def fuse_score32 (cost_matrix : CostMatrix) (detections : List Track) : CostMatrix :=
  if cost_matrix.rows = 0 ∨ cost_matrix.cols = 0 then cost_matrix
  else
    (List.range cost_matrix.rows).foldl (fun cm i =>
      (List.range cost_matrix.cols).foldl (fun cm j =>
        cm.set i j (XFloat.sub32 (XFloat.fin 1)
          (XFloat.mul32 (XFloat.sub32 (XFloat.fin 1) (cm.coeff i j)) (scoreAt detections j))))
        cm) cost_matrix

/-- The body of the inner loop of `fuse_motion` with the operations on `float` carried
out in binary32.  The comparison with the threshold is made in `double`, where the
table entry is taken as exact. -/
def fuseMotionCell32 (gating_threshold : ℚ) (lambda : XFloat) (cm : CostMatrix) (i j : ℕ)
    (d : XFloat) : CostMatrix :=
  let cm := if XFloat.lt (XFloat.fin gating_threshold) d then cm.set i j XFloat.pinf else cm
  cm.set i j (XFloat.add32 (XFloat.mul32 lambda (cm.coeff i j))
    (XFloat.mul32 (XFloat.sub32 (XFloat.fin 1) lambda) d))

/-- The function `fuse_motion` with every operation on `float` carried out in binary32
(`fuse_motion` above is the same function with exact operations). -/
def fuse_motion32
    (gating_distance : KFStateSpaceVec XFloat → KFStateSpaceMatrix XFloat →
      List (DetVec XFloat) → Bool → List XFloat)
    (cost_matrix : CostMatrix) (tracks detections : List Track) (only_position : Bool)
    (lambda : XFloat) : CostMatrix :=
  if cost_matrix.rows = 0 ∨ cost_matrix.cols = 0 then cost_matrix
  else
    let gating_threshold := gating_threshold only_position
    let measurements : List (DetVec XFloat) := detections.map (fun detection =>
      let det_xywh := detection.get_tlwh
      ![det_xywh 0, det_xywh 1, det_xywh 2, det_xywh 3])
    (List.range tracks.length).foldl (fun cm i =>
      let gating_distance := gating_distance (tracks.getD i default).mean
        (tracks.getD i default).covariance measurements only_position
      (List.range gating_distance.length).foldl (fun cm j =>
        fuseMotionCell32 gating_threshold lambda cm i j (gating_distance.getD j XFloat.nan))
        cm) cost_matrix

/-- The binary32 value nearest to `0.1`: `13421773 / 2^27`. -/
def exampleTenth : ℚ := 13421773 / 134217728

/-- The binary32 value nearest to `0.2`: `13421773 / 2^26`. -/
def exampleFifth : ℚ := 13421773 / 67108864

/-- The binary32 value nearest to the default weight `0.98`: `16441672 / 2^24`. -/
def exampleLambda : ℚ := 16441672 / 16777216

/-- The largest binary32 value, `2^128 - 2^104`. -/
def exampleMaxFloat : ℚ := 2 ^ 128 - 2 ^ 104

/-- The template `std::min(a, b)`: `(b < a) ? b : a`. -/
def XFloat.min (a b : XFloat) : XFloat := if XFloat.lt b a then b else a

/-- The template `std::max(a, b)`: `(a < b) ? b : a`. -/
def XFloat.max (a b : XFloat) : XFloat := if XFloat.lt a b then b else a

/-- The matrix `Eigen::MatrixXf::Zero(rows, cols)`. -/
def CostMatrix.zero (rows cols : ℕ) : CostMatrix :=
  { rows := rows, cols := cols, coeff := fun _ _ => XFloat.fin 0 }

/-- The function `fuse_iou_with_emb`.  The first component is the matrix returned, the
second the new content of the reference parameter `emb_matrix`. -/
def fuse_iou_with_emb (iou_matrix emb_matrix : CostMatrix)
    (iou_threshold appearance_threshold : XFloat) : CostMatrix × CostMatrix :=
  if emb_matrix.rows = 0 ∨ emb_matrix.cols = 0 then (iou_matrix, emb_matrix)
  else
    let emb_matrix := (List.range iou_matrix.rows).foldl (fun emb i =>
      (List.range iou_matrix.cols).foldl (fun emb j =>
        if XFloat.lt (iou_matrix.coeff i j) iou_threshold then emb.set i j XFloat.pinf
        else emb) emb) emb_matrix
    let emb_matrix := (List.range emb_matrix.rows).foldl (fun emb i =>
      (List.range emb_matrix.cols).foldl (fun emb j =>
        if XFloat.lt appearance_threshold (emb.coeff i j) then emb.set i j XFloat.pinf
        else emb) emb) emb_matrix
    let cost_matrix := CostMatrix.zero iou_matrix.rows iou_matrix.cols
    let cost_matrix := (List.range iou_matrix.rows).foldl (fun cm i =>
      (List.range iou_matrix.cols).foldl (fun cm j =>
        cm.set i j (XFloat.min (iou_matrix.coeff i j) (emb_matrix.coeff i j))) cm) cost_matrix
    (cost_matrix, emb_matrix)

/-- The result record of `linear_assignment` (`AssociationData` of `DataType.h`, which is
not part of the sources): matched pairs `(track, detection)` and the unmatched
indices of both sides, as vectors of `int`.  The member `matches` is written
`matches_`, the plain word being reserved. -/
structure AssociationData where
  matches_ : List (ℤ × ℤ)
  unmatched_track_indices : List ℤ
  unmatched_det_indices : List ℤ

/-- The function `linear_assignment`; the result is the new content of `associations`.
The solver `lapjv` of `utils.h` is not part of the sources and is a parameter: it gets
the cost matrix, the flag `true` and the threshold, and yields `rowsol` and `colsol`
(`none` stands for a call that does not return).  The counters `int i` run over sizes
that were themselves built from `int` values. -/
def linear_assignment (lapjv : CostMatrix → Bool → XFloat → Option (List ℤ × List ℤ))
    (cost_matrix : CostMatrix) (thresh : XFloat) (associations : AssociationData) :
    Option AssociationData :=
  if cost_matrix.rows * cost_matrix.cols = 0 then
    let associations := (List.range cost_matrix.rows).foldl (fun a i =>
      { a with unmatched_track_indices := a.unmatched_track_indices ++ [(i : ℤ)] }) associations
    let associations := (List.range cost_matrix.cols).foldl (fun a i =>
      { a with unmatched_det_indices := a.unmatched_det_indices ++ [(i : ℤ)] }) associations
    some associations
  else
    match lapjv cost_matrix true thresh with
    | none => none
    | some (rowsol, colsol) =>
      let associations := (List.range rowsol.length).foldl (fun a i =>
        if 0 ≤ rowsol.getD i 0 then
          { a with matches_ := a.matches_ ++ [((i : ℤ), rowsol.getD i 0)] }
        else
          { a with unmatched_track_indices := a.unmatched_track_indices ++ [(i : ℤ)] })
        associations
      let associations := (List.range colsol.length).foldl (fun a i =>
        if colsol.getD i 0 < 0 then
          { a with unmatched_det_indices := a.unmatched_det_indices ++ [(i : ℤ)] }
        else a) associations
      some associations

/-- The measurements `fuse_motion` builds from the detections: the four components of
`get_tlwh()`, in order. -/
def fuseMotionMeasurements (detections : List Track) : List (DetVec XFloat) :=
  detections.map (fun detection =>
    let det_xywh := detection.get_tlwh
    ![det_xywh 0, det_xywh 1, det_xywh 2, det_xywh 3])

/-- Modelled from the spec: the box in the measurement space of the filter, the center
form `(left + w/2, top + h/2, w, h)` of a top-left-width-height box.  The sources
declare `_populate_DetVec_xywh` for this conversion but do not contain its body. -/
def xywhOfTlwh (tlwh : Fin 4 → XFloat) : DetVec XFloat :=
  ![tlwh 0 + tlwh 2 * XFloat.fin (1 / 2), tlwh 1 + tlwh 3 * XFloat.fin (1 / 2), tlwh 2, tlwh 3]

/-- Example input: a solver that returns the given row and column solutions for every
cost matrix. -/
def exampleSolver (rowsol colsol : List ℤ) :
    CostMatrix → Bool → XFloat → Option (List ℤ × List ℤ) :=
  fun _ _ _ => some (rowsol, colsol)

/-- The coefficient `(a, b)` of `emb_matrix` after the two veto loops of
`fuse_iou_with_emb`: the first loop runs over the shape of `iou_matrix`, the second
over the shape of `emb_matrix`. -/
def embAfterVeto (iou_matrix emb_matrix : CostMatrix)
    (iou_threshold appearance_threshold : XFloat) (a b : ℕ) : XFloat :=
  let e1 :=
    if a < iou_matrix.rows ∧ b < iou_matrix.cols then
      (if XFloat.lt (iou_matrix.coeff a b) iou_threshold then XFloat.pinf
       else emb_matrix.coeff a b)
    else emb_matrix.coeff a b
  if a < emb_matrix.rows ∧ b < emb_matrix.cols then
    (if XFloat.lt appearance_threshold e1 then XFloat.pinf else e1)
  else e1

section Cholesky
variable {α : Type} [LinearOrderedField α]

theorem quad_cons {n : ℕ} (A : Matrix (Fin (n + 1)) (Fin (n + 1)) α) (x0 : α) (y : Fin n → α) :
    (Fin.cons x0 y : Fin (n + 1) → α) ⬝ᵥ A *ᵥ (Fin.cons x0 y : Fin (n + 1) → α) =
      A 0 0 * x0 * x0 + x0 * (∑ j, A 0 j.succ * y j) + x0 * (∑ i, A i.succ 0 * y i)
        + ∑ i, y i * ∑ j, A i.succ j.succ * y j := by
  simp only [dotProduct, mulVec, Fin.sum_univ_succ, Fin.cons_zero, Fin.cons_succ]
  simp only [mul_add, Finset.sum_add_distrib, Finset.mul_sum]
  have : ∑ i, y i * (A i.succ 0 * x0) = ∑ i, x0 * (A i.succ 0 * y i) :=
    Finset.sum_congr rfl (fun i _ => by ring)
  rw [this]; ring

theorem IsPosDef.head_pos {n : ℕ} {A : Matrix (Fin (n + 1)) (Fin (n + 1)) α} (h : IsPosDef A) :
    0 < A 0 0 := by
  have hx := h.2 (Fin.cons 1 0) (by intro hx; have := congrFun hx 0; simp at this)
  rw [quad_cons] at hx
  simpa using hx

theorem IsPosDef.trailing {n : ℕ} {A : Matrix (Fin (n + 1)) (Fin (n + 1)) α} (h : IsPosDef A)
    {l : α} (hl : l * l = A 0 0) : IsPosDef (cholTrailing A l) := by
  have ha := h.head_pos
  have hl0 : l ≠ 0 := by
    rintro rfl
    simp at hl
    exact ha.ne hl
  have hsym : ∀ i j, A i j = A j i := fun i j => (h.1.apply i j).symm
  refine ⟨?_, ?_⟩
  · ext i j
    simp only [cholTrailing, transpose_apply]
    rw [hsym j.succ i.succ, mul_comm]
  · intro y hy
    have hx := h.2 (Fin.cons (-((∑ j, A j.succ 0 * y j) / A 0 0)) y) (by
      intro hx
      apply hy
      funext i
      have := congrFun hx i.succ
      simpa using this)
    rw [quad_cons] at hx
    have e1 : ∑ j, A 0 j.succ * y j = ∑ j, A j.succ 0 * y j :=
      Finset.sum_congr rfl (fun j _ => by rw [hsym])
    rw [e1] at hx
    have inner : ∀ i : Fin n, ∑ j, A i.succ 0 / l * (A j.succ 0 / l) * y j
        = A i.succ 0 / l * ((∑ j, A j.succ 0 * y j) / l) := by
      intro i
      rw [Finset.sum_div, Finset.mul_sum]
      exact Finset.sum_congr rfl (fun j _ => by ring)
    have outer : ∑ i, y i * (A i.succ 0 / l * ((∑ j, A j.succ 0 * y j) / l))
        = (∑ j, A j.succ 0 * y j) * ((∑ j, A j.succ 0 * y j) / l / l) := by
      rw [Finset.sum_mul]
      exact Finset.sum_congr rfl (fun j _ => by ring)
    have e2 : y ⬝ᵥ cholTrailing A l *ᵥ y
        = (∑ i, y i * ∑ j, A i.succ j.succ * y j)
          - (∑ j, A j.succ 0 * y j) * (∑ j, A j.succ 0 * y j) / A 0 0 := by
      have term : ∀ i : Fin n, y i * ∑ j, cholTrailing A l i j * y j
          = y i * (∑ j, A i.succ j.succ * y j)
            - y i * (A i.succ 0 / l * ((∑ j, A j.succ 0 * y j) / l)) := by
        intro i
        rw [← inner i, ← mul_sub, ← Finset.sum_sub_distrib]
        congr 1
        exact Finset.sum_congr rfl (fun j _ => by simp only [cholTrailing]; ring)
      simp only [dotProduct, mulVec]
      rw [Finset.sum_congr rfl (fun i _ => term i), Finset.sum_sub_distrib, outer, ← hl]
      field_simp
    rw [e2]
    have e3 : A 0 0 * -((∑ j, A j.succ 0 * y j) / A 0 0) * -((∑ j, A j.succ 0 * y j) / A 0 0)
        + -((∑ j, A j.succ 0 * y j) / A 0 0) * (∑ j, A j.succ 0 * y j)
        + -((∑ j, A j.succ 0 * y j) / A 0 0) * (∑ j, A j.succ 0 * y j)
        = - ((∑ j, A j.succ 0 * y j) * (∑ j, A j.succ 0 * y j) / A 0 0) := by
      field_simp
      ring
    linarith

theorem cholesky_spec {sqrt : α → α} (hsqrt : SqrtExact sqrt) :
    ∀ (n : ℕ) (A : Matrix (Fin n) (Fin n) α), IsPosDef A →
      (∀ i j, i < j → cholesky sqrt n A i j = 0) ∧ (∀ i, cholesky sqrt n A i i ≠ 0) ∧
        cholesky sqrt n A * (cholesky sqrt n A)ᵀ = A
  | 0, A, _ => ⟨fun i => i.elim0, fun i => i.elim0, by ext i; exact i.elim0⟩
  | n + 1, A, h => by
    have ha := h.head_pos
    have hl := hsqrt _ ha
    have hl0 : sqrt (A 0 0) ≠ 0 := by
      intro h0
      rw [h0] at hl
      simp at hl
      exact ha.ne hl
    have hsym : ∀ i j, A i j = A j i := fun i j => (h.1.apply i j).symm
    obtain ⟨ih1, ih2, ih3⟩ := cholesky_spec hsqrt n _ (h.trailing hl)
    refine ⟨?_, ?_, ?_⟩
    · intro i j
      refine Fin.cases ?_ (fun i' => ?_) i <;> refine Fin.cases ?_ (fun j' => ?_) j
      · intro hij; exact absurd hij (lt_irrefl _)
      · intro _; simp [cholesky]
      · intro hij; exact absurd hij (by simp)
      · intro hij
        have := ih1 i' j' (by simpa using hij)
        simpa [cholesky] using this
    · intro i
      refine Fin.cases ?_ (fun i' => ?_) i
      · simpa [cholesky] using hl0
      · simpa [cholesky] using ih2 i'
    · ext i j
      rw [Matrix.mul_apply]
      simp only [transpose_apply, Fin.sum_univ_succ]
      refine Fin.cases ?_ (fun i' => ?_) i <;> refine Fin.cases ?_ (fun j' => ?_) j
      · simp [cholesky, hl]
      · simp only [cholesky, Fin.cases_zero, Fin.cases_succ, zero_mul, Finset.sum_const_zero,
          add_zero]
        rw [hsym 0 j'.succ]
        field_simp
      · simp only [cholesky, Fin.cases_zero, Fin.cases_succ, mul_zero, Finset.sum_const_zero,
          add_zero]
        field_simp
      · simp only [cholesky, Fin.cases_zero, Fin.cases_succ]
        have h3 := congrFun (congrFun ih3 i') j'
        rw [Matrix.mul_apply] at h3
        simp only [transpose_apply] at h3
        rw [h3]
        simp only [cholTrailing]
        ring

theorem forwardSubst_spec : ∀ (n : ℕ) (L : Matrix (Fin n) (Fin n) α) (b : Fin n → α),
    (∀ i j, i < j → L i j = 0) → (∀ i, L i i ≠ 0) → L *ᵥ forwardSubst n L b = b
  | 0, _, _, _, _ => by funext i; exact i.elim0
  | n + 1, L, b, hlow, hdiag => by
    have ih := forwardSubst_spec n (fun i j => L i.succ j.succ)
      (fun i => b i.succ - L i.succ 0 * (b 0 / L 0 0))
      (fun i j hij => hlow _ _ (by simpa using hij)) (fun i => hdiag _)
    funext i
    simp only [mulVec, dotProduct, Fin.sum_univ_succ, forwardSubst, Fin.cons_zero, Fin.cons_succ]
    refine Fin.cases ?_ (fun i' => ?_) i
    · have hz : ∀ j : Fin n, L 0 j.succ = 0 := fun j => hlow _ _ (Fin.succ_pos j)
      simp only [hz, zero_mul, Finset.sum_const_zero, add_zero]
      field_simp [hdiag 0]
    · have h1 := congrFun ih i'
      simp only [mulVec, dotProduct] at h1
      rw [h1]
      ring

theorem backSubst_spec : ∀ (n : ℕ) (U : Matrix (Fin n) (Fin n) α) (b : Fin n → α),
    (∀ i j, j < i → U i j = 0) → (∀ i, U i i ≠ 0) → U *ᵥ backSubst n U b = b
  | 0, _, _, _, _ => by funext i; exact i.elim0
  | n + 1, U, b, hup, hdiag => by
    have ih := backSubst_spec n (fun i j => U i.succ j.succ) (fun i => b i.succ)
      (fun i j hij => hup _ _ (by simpa using hij)) (fun i => hdiag _)
    funext i
    simp only [mulVec, dotProduct, Fin.sum_univ_succ, backSubst, Fin.cons_zero, Fin.cons_succ]
    refine Fin.cases ?_ (fun i' => ?_) i
    · field_simp [hdiag 0]
    · have h1 := congrFun ih i'
      simp only [mulVec, dotProduct] at h1
      rw [h1, hup i'.succ 0 (Fin.succ_pos i')]
      ring

theorem IsPosDef.det_ne_zero {n : ℕ} {S : Matrix (Fin n) (Fin n) α} (h : IsPosDef S) :
    S.det ≠ 0 := by
  intro hdet
  obtain ⟨v, hv, hSv⟩ := Matrix.exists_mulVec_eq_zero_iff.mpr hdet
  have := h.2 v hv
  rw [hSv] at this
  simp at this

theorem lltSolve_mul {sqrt : α → α} (hsqrt : SqrtExact sqrt) {n k : ℕ}
    (S : Matrix (Fin n) (Fin n) α) (B : Matrix (Fin n) (Fin k) α) (hS : IsPosDef S) :
    S * lltSolve sqrt S B = B := by
  obtain ⟨hlow, hdiag, hLL⟩ := cholesky_spec hsqrt n S hS
  ext i c
  have hcol : (S * lltSolve sqrt S B) i c
      = (S *ᵥ (backSubst n (cholesky sqrt n S)ᵀ
          (forwardSubst n (cholesky sqrt n S) (fun r => B r c)))) i := by
    simp only [Matrix.mul_apply, mulVec, dotProduct, lltSolve]
  have key : ∀ x : Fin n → α,
      S *ᵥ x = cholesky sqrt n S *ᵥ ((cholesky sqrt n S)ᵀ *ᵥ x) := by
    intro x
    rw [Matrix.mulVec_mulVec, hLL]
  rw [hcol, key,
    backSubst_spec n _ _ (fun i j hij => by simpa using hlow j i hij) (fun i => by simpa using hdiag i),
    forwardSubst_spec n _ _ hlow hdiag]

theorem lltSolve_eq_inv_mul {sqrt : α → α} (hsqrt : SqrtExact sqrt) {n k : ℕ}
    (S : Matrix (Fin n) (Fin n) α) (B : Matrix (Fin n) (Fin k) α) (hS : IsPosDef S) :
    lltSolve sqrt S B = S⁻¹ * B := by
  have hu : IsUnit S.det := isUnit_iff_ne_zero.mpr hS.det_ne_zero
  conv_rhs => rw [← lltSolve_mul hsqrt S B hS]
  rw [Matrix.nonsing_inv_mul_cancel_left _ _ hu]

end Cholesky

/-! ## Theorems: the motion filter -/

section Filter
variable {α : Type} [LinearOrderedField α]

theorem vecEight_apply {β : Type} (a0 a1 a2 a3 a4 a5 a6 a7 : β) :
    (![a0, a1, a2, a3, a4, a5, a6, a7] : Fin 8 → β) 4 = a4 ∧
    (![a0, a1, a2, a3, a4, a5, a6, a7] : Fin 8 → β) 5 = a5 ∧
    (![a0, a1, a2, a3, a4, a5, a6, a7] : Fin 8 → β) 6 = a6 ∧
    (![a0, a1, a2, a3, a4, a5, a6, a7] : Fin 8 → β) 7 = a7 := ⟨rfl, rfl, rfl, rfl⟩

/-- C4: for every measurement `m = (x, y, w, h)`, `init` returns the mean
`(x, y, w, h, 0, 0, 0, 0)` and a covariance whose off-diagonal entries are all `0` and
whose diagonal holds the squares of
`(2w/20, 2h/20, 2w/20, 2h/20, 10w/160, 10h/160, 10w/160, 10h/160)`, in that order. -/
theorem init_mean_and_diagonal_covariance (dt : α) (m : DetVec α) :
    ((KalmanFilter.new dt).init m).1 = ![m 0, m 1, m 2, m 3, 0, 0, 0, 0] ∧
    ∀ i j : Fin 8, ((KalmanFilter.new dt).init m).2 i j =
      if i = j then
        (![2 * m 2 / 20, 2 * m 3 / 20, 2 * m 2 / 20, 2 * m 3 / 20,
           10 * m 2 / 160, 10 * m 3 / 160, 10 * m 2 / 160, 10 * m 3 / 160] i) ^ 2
      else 0 := by
  refine ⟨?_, ?_⟩
  · funext i
    fin_cases i <;> rfl
  · intro i j
    by_cases hij : i = j
    · subst hij
      simp only [KalmanFilter.init, KalmanFilter.new, Matrix.diagonal_apply_eq, if_true]
      fin_cases i <;> simp +decide [vecEight_apply] <;> ring
    · simp only [KalmanFilter.init, Matrix.diagonal_apply_ne _ hij, if_neg hij]

end Filter

/-! ## Theorems: the gating distance -/

section Gating
variable {α : Type} [LinearOrderedField α]

/-- With at least 256 measurements the 8-bit counter never reaches
`measurements.size()`: the loop has not finished after any number of tests. -/
theorem fillDiff_none (measurements : List (DetVec α)) (projected_mean : KFMeasSpaceVec α)
    (h : 256 ≤ measurements.length) :
    ∀ (fuel i : ℕ) (diff : List (Fin 4 → α)), i < 256 →
      fillDiff measurements projected_mean fuel i diff = none := by
  intro fuel
  induction fuel with
  | zero => intro i diff _; rfl
  | succ fuel ih =>
    intro i diff hi
    unfold fillDiff
    rw [if_pos (by omega)]
    exact ih _ _ (Nat.mod_lt _ (by decide))

/-- With at most 255 measurements the loop ends after `measurements.size() + 1` tests
with every row of `diff` written. -/
theorem fillDiff_some (measurements : List (DetVec α)) (projected_mean : KFMeasSpaceVec α)
    (h : measurements.length ≤ 255) :
    ∀ (fuel i : ℕ) (diff : List (Fin 4 → α)), i ≤ measurements.length →
      diff.length = measurements.length → measurements.length - i < fuel →
      (∀ k, k < i → diff[k]? = (measurements.map (fun z => z - projected_mean))[k]?) →
      fillDiff measurements projected_mean fuel i diff
        = some (measurements.map (fun z => z - projected_mean)) := by
  intro fuel
  induction fuel with
  | zero => intro i diff _ _ hf; exact absurd hf (Nat.not_lt_zero _)
  | succ fuel ih =>
    intro i diff hi hlen hf hpre
    unfold fillDiff
    by_cases hlt : i < measurements.length
    · rw [if_pos hlt, Nat.mod_eq_of_lt (by omega)]
      refine ih (i + 1) _ hlt (by rw [List.length_set]; exact hlen) (by omega) (fun k hk => ?_)
      by_cases hki : k = i
      · subst hki
        rw [List.getElem?_set_self (by omega), List.getElem?_map,
          List.getD_eq_getElem?_getD, List.getElem?_eq_getElem hlt]
        rfl
      · rw [List.getElem?_set_ne (fun h => hki h.symm)]
        exact hpre k (by omega)
    · rw [if_neg hlt]
      congr 1
      refine List.ext_getElem? (fun k => ?_)
      by_cases hk : k < i
      · exact hpre k hk
      · rw [List.getElem?_eq_none (by omega), List.getElem?_eq_none (by simp; omega)]

/-- C2 fails on the code for 256 or more measurements: the counter of the loop that
fills `diff` is a `uint8_t` and wraps from 255 to 0 before it can reach
`measurements.size()`, so `gating_distance` returns no value, whatever the number of
loop tests allowed. -/
theorem gating_distance_never_returns (sqrt : α → α) (kf : KalmanFilter α) (fuel : ℕ)
    (mean : KFStateSpaceVec α) (covariance : KFStateSpaceMatrix α)
    (measurements : List (DetVec α)) (h : 256 ≤ measurements.length) :
    kf.gating_distance sqrt fuel mean covariance measurements = none := by
  unfold KalmanFilter.gating_distance
  simp only
  rw [fillDiff_none measurements _ h fuel 0 _ (by decide)]

/-- The failing input of C2: 256 measurements. -/
theorem gating_distance_never_returns_witness :
    (KalmanFilter.new (1 : ℚ)).gating_distance id 1000000 0 0 (List.replicate 256 0) = none :=
  gating_distance_never_returns id _ 1000000 0 0 (List.replicate 256 0)
    (by rw [List.length_replicate])

end Gating

/-! ## Theorems: termination of the gating loop -/

section GatingLoop
variable {α : Type} [LinearOrderedField α]

/-- When the loop that fills `diff` ends, `gating_distance` returns one value per row of
`diff`. -/
theorem gating_distance_of_fillDiff (sqrt : α → α) (kf : KalmanFilter α) (fuel : ℕ)
    (mean : KFStateSpaceVec α) (covariance : KFStateSpaceMatrix α)
    (measurements : List (DetVec α)) (diff : List (Fin 4 → α))
    (h : fillDiff measurements (kf.project mean covariance).1 fuel 0
      (List.replicate measurements.length 0) = some diff) :
    ∃ out, kf.gating_distance sqrt fuel mean covariance measurements = some out ∧
      out.length = diff.length := by
  unfold KalmanFilter.gating_distance
  simp only
  rw [h]
  exact ⟨_, rfl, by simp⟩

/-- C21 fails on the code: the loop of `gating_distance` that fills the difference rows
ends, for some number of loop tests, exactly when there are at most 255 measurements,
and so does `gating_distance` (then with one distance per measurement).  With 256 or
more measurements the 8-bit counter wraps from 255 to 0, the loop never ends and
`gating_distance` never returns. -/
theorem gating_distance_returns_iff (sqrt : α → α) (kf : KalmanFilter α)
    (mean : KFStateSpaceVec α) (covariance : KFStateSpaceMatrix α)
    (measurements : List (DetVec α)) :
    ((∃ fuel diff, fillDiff measurements (kf.project mean covariance).1 fuel 0
        (List.replicate measurements.length 0) = some diff) ↔ measurements.length ≤ 255) ∧
    ((∃ fuel out, kf.gating_distance sqrt fuel mean covariance measurements = some out ∧
        out.length = measurements.length) ↔ measurements.length ≤ 255) := by
  have hsome : measurements.length ≤ 255 →
      fillDiff measurements (kf.project mean covariance).1 (measurements.length + 1) 0
        (List.replicate measurements.length 0)
        = some (measurements.map (fun z => z - (kf.project mean covariance).1)) := fun hn =>
    fillDiff_some measurements _ hn (measurements.length + 1) 0 _ (Nat.zero_le _) (by simp)
      (by omega) (fun k hk => absurd hk (Nat.not_lt_zero _))
  have hnone : ¬ measurements.length ≤ 255 → ∀ fuel,
      fillDiff measurements (kf.project mean covariance).1 fuel 0
        (List.replicate measurements.length 0) = none := fun hn fuel =>
    fillDiff_none measurements _ (by omega) fuel 0 _ (by decide)
  refine ⟨⟨fun h => ?_, fun hn => ⟨_, _, hsome hn⟩⟩, ⟨fun h => ?_, fun hn => ?_⟩⟩
  · by_contra hn
    obtain ⟨fuel, diff, hd⟩ := h
    rw [hnone hn fuel] at hd
    exact Option.noConfusion hd
  · by_contra hn
    obtain ⟨fuel, out, ho, _⟩ := h
    unfold KalmanFilter.gating_distance at ho
    simp only at ho
    rw [hnone hn fuel] at ho
    exact Option.noConfusion ho
  · obtain ⟨out, ho, hl⟩ := gating_distance_of_fillDiff sqrt kf _ mean covariance measurements _
      (hsome hn)
    exact ⟨_, out, ho, by rw [hl, List.length_map]⟩

end GatingLoop

/-- The failing input of C21: with 300 measurements `gating_distance` returns for no
number of loop tests. -/
theorem gating_distance_returns_iff_witness :
    ¬ ∃ fuel out, (KalmanFilter.new (1 : ℚ)).gating_distance id fuel 0 0
        (List.replicate 300 0) = some out ∧
      out.length = (List.replicate 300 (0 : DetVec ℚ)).length :=
  fun h => absurd ((gating_distance_returns_iff id (KalmanFilter.new (1 : ℚ)) 0 0
    (List.replicate 300 0)).2.mp h) (by rw [List.length_replicate]; decide)

/-! ## Theorems: the filter functions as written -/

section Runtime
variable {α : Type} [LinearOrderedField α]

/-- The block `(0, 0, 4, 1)` does not lie inside a vector declared without a size. -/
theorem assignBlock_vectorXf_zero (src : Dense α) :
    (Dense.vectorXf 0 : Dense α).assignBlock 0 0 4 1 src = none := by
  simp [Dense.assignBlock, Dense.vectorXf]

/-- A square object of dimension 4 cannot be assigned to an `Eigen::VectorXf`. -/
theorem assignVectorXf_asDiagonal (v : Dense α) (hr : v.rows = 4) (hc : v.cols = 1) :
    Dense.assignVectorXf v.asDiagonal = none := by
  simp [Dense.assignVectorXf, Dense.asDiagonal, hr, hc]

/-- The product of a matrix with 8 columns and a row vector is not defined. -/
theorem mul_ofRow {m : ℕ} (M : Matrix (Fin m) (Fin 8) α) (v : Fin 8 → α) :
    (Dense.ofMatrix M).mul (Dense.ofRow v) = none := by
  simp [Dense.mul, Dense.ofMatrix, Dense.ofRow]

/-- The comma initialiser of a vector of 4 coefficients with 4 values passes its check. -/
theorem commaInit_vectorXf_four (a b c d : α) :
    ∃ v, (Dense.vectorXf 4 : Dense α).commaInit [a, b, c, d] = some v ∧
      v.rows = 4 ∧ v.cols = 1 ∧ v.coeff 0 0 = a ∧ v.coeff 3 0 = d :=
  ⟨_, rfl, rfl, rfl, rfl, rfl⟩

/-- The same block assignment passes its checks on a vector of 8 coefficients. -/
theorem assignBlock_vectorXf_eight (src : Dense α) (hr : src.rows = 4) (hc : src.cols = 1) :
    ∃ v, (Dense.vectorXf 8 : Dense α).assignBlock 0 0 4 1 src = some v ∧
      v.rows = 8 ∧ v.cols = 1 := by
  simp [Dense.assignBlock, Dense.vectorXf, hr, hc]

/-- The sum of two 4 x 4 objects passes its check. -/
theorem add_ofMatrix (A B : Matrix (Fin 4) (Fin 4) α) :
    ∃ d, (Dense.ofMatrix A).add (Dense.ofMatrix B) = some d ∧ d.rows = 4 ∧ d.cols = 4 := by
  simp [Dense.add, Dense.ofMatrix]

theorem predict_eq_none (kf : KalmanFilter α) (mean : KFStateSpaceVec α)
    (covariance : KFStateSpaceMatrix α) : byte_kalman.predict kf mean covariance = none := by
  simp [byte_kalman.predict, Dense.commaInit, Dense.vectorXf, Dense.assignBlock]

theorem project_eq_none (kf : KalmanFilter α) (mean : KFStateSpaceVec α)
    (covariance : KFStateSpaceMatrix α) : byte_kalman.project kf mean covariance = none := by
  simp [byte_kalman.project, Dense.commaInit, Dense.vectorXf, Dense.assignVectorXf,
    Dense.square, Dense.asDiagonal]

theorem update_eq_none (kf : KalmanFilter α) (sqrt : α → α) (mean : KFStateSpaceVec α)
    (covariance : KFStateSpaceMatrix α) (z : DetVec α) :
    byte_kalman.update kf sqrt mean covariance z = none := by
  simp [byte_kalman.update, project_eq_none]

theorem gating_distance_eq_none (kf : KalmanFilter α) (sqrt : α → α) (fuel : ℕ)
    (mean : KFStateSpaceVec α) (covariance : KFStateSpaceMatrix α)
    (measurements : List (DetVec α)) :
    byte_kalman.gating_distance kf sqrt fuel mean covariance measurements = none := by
  simp [byte_kalman.gating_distance, project_eq_none]

/-- C3 fails on the code: `predict` declares `std_combined` without a size and assigns
its blocks of rows 0..3 and 4..7 without resizing it.  The first block assignment fails
whatever is assigned, and `predict` writes no mean and no covariance, for every filter,
mean and covariance. -/
theorem predict_writes_nothing (kf : KalmanFilter α) (mean : KFStateSpaceVec α)
    (covariance : KFStateSpaceMatrix α) (std_pos : Dense α) :
    (Dense.vectorXf 0 : Dense α).assignBlock 0 0 4 1 std_pos = none ∧
    byte_kalman.predict kf mean covariance = none :=
  ⟨assignBlock_vectorXf_zero std_pos, predict_eq_none kf mean covariance⟩

/-- C5 fails on the code: `project` assigns to the `Eigen::VectorXf` `innovation_cov`
its own `asDiagonal()`, a 4 x 4 object.  The assignment fails whatever the 4
coefficients are, and `project` returns no mean and no covariance, for every filter,
mean and covariance. -/
theorem project_returns_nothing (kf : KalmanFilter α) (mean : KFStateSpaceVec α)
    (covariance : KFStateSpaceMatrix α) (innovation_cov : ℕ → ℕ → α) :
    Dense.assignVectorXf (Dense.mk 4 1 innovation_cov).asDiagonal = none ∧
    byte_kalman.project kf mean covariance = none :=
  ⟨assignVectorXf_asDiagonal _ rfl rfl, project_eq_none kf mean covariance⟩

/-- C1 fails on the code: `update` starts with a call of `project`, which returns
nothing, so `update` returns no posterior, for every filter, state and measurement. -/
theorem update_returns_no_posterior (kf : KalmanFilter α) (sqrt : α → α)
    (mean : KFStateSpaceVec α) (covariance : KFStateSpaceMatrix α) (measurement : DetVec α) :
    byte_kalman.update kf sqrt mean covariance measurement = none :=
  update_eq_none kf sqrt mean covariance measurement

/-- C15 fails on the code: `init`, then `predict`, then `project` yields no
measurement-space mean, for every measurement and every time step: `predict` fails on
the state that `init` returns. -/
theorem project_predict_init_no_mean (dt : α) (m : DetVec α) :
    ((byte_kalman.predict (KalmanFilter.new dt) ((KalmanFilter.new dt).init m).1
        ((KalmanFilter.new dt).init m).2).bind
      (fun state => byte_kalman.project (KalmanFilter.new dt) state.1 state.2)).map Prod.fst
      = none := by
  rw [predict_eq_none]
  rfl

/-- C17 fails on the code: `gating_distance` of a state against the first 4 components
of its own mean, passed as the single measurement, returns no distance, for every
filter, state and number of loop tests: the call of `project` fails, and a `diff` of one
row could not be passed to the triangular solve with the 4 x 4 factor either. -/
theorem gating_distance_self_returns_nothing (kf : KalmanFilter α) (sqrt : α → α) (fuel : ℕ)
    (mean : KFStateSpaceVec α) (covariance : KFStateSpaceMatrix α) (d : Fin 4 → α) :
    byte_kalman.gating_distance kf sqrt fuel mean covariance
        [![mean 0, mean 1, mean 2, mean 3]] = none ∧
    (Dense.mk [d].length 4 (fun i j =>
      if h : j < 4 then ([d].getD i 0) ⟨j, h⟩ else 0)).toMatrix 4 4 = none := by
  refine ⟨gating_distance_eq_none kf sqrt fuel mean covariance _, ?_⟩
  simp [Dense.toMatrix]

end Runtime

/-! ## Theorems: position-only gating -/

section OnlyPosition
variable {α : Type} [LinearOrderedField α]

end OnlyPosition

variable {α : Type} [LinearOrderedField α]

/-! ## Theorems: cost fusion -/

section Fusion

@[simp] theorem XFloat.fin_add_fin (a b : ℚ) : XFloat.fin a + XFloat.fin b = XFloat.fin (a + b) :=
  rfl

@[simp] theorem XFloat.fin_sub_fin (a b : ℚ) : XFloat.fin a - XFloat.fin b = XFloat.fin (a - b) := by
  show XFloat.add (XFloat.fin a) (XFloat.neg (XFloat.fin b)) = _
  simp only [XFloat.neg, XFloat.add, sub_eq_add_neg]

@[simp] theorem XFloat.fin_mul_fin (a b : ℚ) : XFloat.fin a * XFloat.fin b = XFloat.fin (a * b) :=
  rfl

theorem XFloat.add_def (a b : XFloat) : a + b = XFloat.add a b := rfl

theorem XFloat.sub_def (a b : XFloat) : a - b = XFloat.add a (XFloat.neg b) := rfl

theorem XFloat.mul_def (a b : XFloat) : a * b = XFloat.mul a b := rfl

theorem scoreAt_of_getElem? {detections : List Track} {j : ℕ} {d : Track}
    (h : detections[j]? = some d) : scoreAt detections j = d.get_score := by
  simp [scoreAt, h]

theorem CostMatrix.eq_of_coeff {m1 m2 : CostMatrix} (hr : m1.rows = m2.rows)
    (hc : m1.cols = m2.cols) (h : ∀ a b, m1.coeff a b = m2.coeff a b) : m1 = m2 := by
  cases m1
  cases m2
  simp only [CostMatrix.mk.injEq]
  exact ⟨hr, hc, funext fun a => funext fun b => h a b⟩

/-- A loop over the columns `0 .. n-1` whose body rewrites the cell `(i, j)` from its
current value rewrites exactly the cells `(i, j)`, `j < n`, each from its old value. -/
theorem foldl_range_cols (step : CostMatrix → ℕ → CostMatrix) (i : ℕ) (g : ℕ → XFloat → XFloat)
    (hstep : ∀ cm j, step cm j = cm.set i j (g j (cm.coeff i j))) (n : ℕ) (cm : CostMatrix) :
    (List.range n).foldl step cm =
      { cm with coeff := fun a b => if a = i ∧ b < n then g b (cm.coeff a b) else cm.coeff a b } := by
  induction n with
  | zero => exact CostMatrix.eq_of_coeff rfl rfl (fun a b => by simp)
  | succ n ih =>
    rw [List.range_succ, List.foldl_append, ih]
    simp only [List.foldl_cons, List.foldl_nil, hstep]
    refine CostMatrix.eq_of_coeff rfl rfl (fun a b => ?_)
    simp only [CostMatrix.set]
    by_cases ha : a = i
    · subst ha
      rcases Nat.lt_trichotomy b n with hb | hb | hb
      · simp [hb, hb.ne, Nat.lt_succ_of_lt hb]
      · subst hb
        simp
      · have h1 : ¬ b < n := by omega
        have h2 : ¬ b < n + 1 := by omega
        have h3 : ¬ b = n := by omega
        simp [h1, h2, h3]
    · simp [ha]

/-- A loop over the rows `0 .. n-1` whose body rewrites the cells `(i, j)`, `j < w i`, of
row `i` rewrites exactly the cells `(i, j)` with `i < n` and `j < w i`. -/
theorem foldl_range_rows (step : CostMatrix → ℕ → CostMatrix) (w : ℕ → ℕ)
    (g : ℕ → ℕ → XFloat → XFloat)
    (hstep : ∀ cm i, step cm i =
      { cm with coeff := fun a b => if a = i ∧ b < w i then g i b (cm.coeff a b) else cm.coeff a b })
    (n : ℕ) (cm : CostMatrix) :
    (List.range n).foldl step cm =
      { cm with coeff := fun a b =>
          if a < n ∧ b < w a then g a b (cm.coeff a b) else cm.coeff a b } := by
  induction n with
  | zero => exact CostMatrix.eq_of_coeff rfl rfl (fun a b => by simp)
  | succ n ih =>
    rw [List.range_succ, List.foldl_append, ih]
    simp only [List.foldl_cons, List.foldl_nil, hstep]
    refine CostMatrix.eq_of_coeff rfl rfl (fun a b => ?_)
    simp only
    rcases Nat.lt_trichotomy a n with ha | ha | ha
    · simp [ha, ha.ne, Nat.lt_succ_of_lt ha]
    · subst ha
      simp
    · have h1 : ¬ a < n := by omega
      have h2 : ¬ a < n + 1 := by omega
      have h3 : ¬ a = n := by omega
      simp [h1, h2, h3]

/-- The value the inner loop of `fuse_motion` writes into a cell holding `c` when the
gating distance is `d`. -/
theorem fuseMotionCell_eq (thr : ℚ) (lambda : XFloat) (cm : CostMatrix) (i j : ℕ) (d : XFloat) :
    fuseMotionCell thr lambda cm i j d =
      cm.set i j (lambda * (if XFloat.lt (XFloat.fin thr) d then XFloat.pinf else cm.coeff i j)
        + (XFloat.fin 1 - lambda) * d) := by
  unfold fuseMotionCell
  refine CostMatrix.eq_of_coeff ?_ ?_ (fun a b => ?_)
  · split <;> rfl
  · split <;> rfl
  · by_cases hab : a = i ∧ b = j
    · split <;> simp [CostMatrix.set, hab]
    · split <;> simp [CostMatrix.set, hab]

theorem fuse_motion_eq
    (gating_distance : KFStateSpaceVec XFloat → KFStateSpaceMatrix XFloat →
      List (DetVec XFloat) → Bool → List XFloat)
    (cost_matrix : CostMatrix) (tracks detections : List Track) (only_position : Bool)
    (lambda : XFloat) (hr : cost_matrix.rows ≠ 0) (hc : cost_matrix.cols ≠ 0) :
    fuse_motion gating_distance cost_matrix tracks detections only_position lambda =
      { cost_matrix with coeff := fun a b =>
          (if a < tracks.length ∧
              b < (gatingRow gating_distance tracks detections only_position a).length then
            lambda * (if XFloat.lt (XFloat.fin (gating_threshold only_position))
                  ((gatingRow gating_distance tracks detections only_position a).getD b XFloat.nan)
                then XFloat.pinf else cost_matrix.coeff a b)
              + (XFloat.fin 1 - lambda)
                * (gatingRow gating_distance tracks detections only_position a).getD b XFloat.nan
          else cost_matrix.coeff a b) } := by
  unfold fuse_motion
  rw [if_neg (by simp [hr, hc])]
  exact foldl_range_rows _
    (fun a => (gatingRow gating_distance tracks detections only_position a).length)
    (fun a b c =>
      lambda * (if XFloat.lt (XFloat.fin (gating_threshold only_position))
            ((gatingRow gating_distance tracks detections only_position a).getD b XFloat.nan)
          then XFloat.pinf else c)
        + (XFloat.fin 1 - lambda)
          * (gatingRow gating_distance tracks detections only_position a).getD b XFloat.nan)
    (fun cm i => foldl_range_cols _ i
      (fun b c =>
        lambda * (if XFloat.lt (XFloat.fin (gating_threshold only_position))
              ((gatingRow gating_distance tracks detections only_position i).getD b XFloat.nan)
            then XFloat.pinf else c)
          + (XFloat.fin 1 - lambda)
            * (gatingRow gating_distance tracks detections only_position i).getD b XFloat.nan)
      (fun cm j => fuseMotionCell_eq _ _ cm i j _) _ cm) _ _

theorem fuse_motion_coeff
    (gating_distance : KFStateSpaceVec XFloat → KFStateSpaceMatrix XFloat →
      List (DetVec XFloat) → Bool → List XFloat)
    (cost_matrix : CostMatrix) (tracks detections : List Track) (only_position : Bool)
    (lambda : XFloat) (hr : cost_matrix.rows ≠ 0) (hc : cost_matrix.cols ≠ 0) (i j : ℕ)
    (d : XFloat) (hi : i < tracks.length)
    (hd : (gatingRow gating_distance tracks detections only_position i)[j]? = some d) :
    (fuse_motion gating_distance cost_matrix tracks detections only_position lambda).coeff i j =
      lambda * (if XFloat.lt (XFloat.fin (gating_threshold only_position)) d
          then XFloat.pinf else cost_matrix.coeff i j)
        + (XFloat.fin 1 - lambda) * d := by
  rw [fuse_motion_eq _ _ _ _ _ _ hr hc]
  obtain ⟨hj, hjd⟩ := List.getElem?_eq_some_iff.mp hd
  have hget : (gatingRow gating_distance tracks detections only_position i).getD j XFloat.nan
      = d := by
    rw [List.getD_eq_getElem?_getD, hd]
    rfl
  simp only [hi, hj, and_self, if_true, hget]

theorem fuse_motion_zero_area
    (gating_distance : KFStateSpaceVec XFloat → KFStateSpaceMatrix XFloat →
      List (DetVec XFloat) → Bool → List XFloat)
    (cost_matrix : CostMatrix) (tracks detections : List Track) (only_position : Bool)
    (lambda : XFloat) (h : cost_matrix.rows = 0 ∨ cost_matrix.cols = 0) :
    fuse_motion gating_distance cost_matrix tracks detections only_position lambda
      = cost_matrix := by
  unfold fuse_motion
  rw [if_pos h]

theorem gating_threshold_values :
    gating_threshold true = 5.9915 ∧ gating_threshold false = 9.4877 := by
  constructor <;> simp [gating_threshold, chi2inv95]

theorem gating_threshold_pos (only_position : Bool) : 0 < gating_threshold only_position := by
  cases only_position
  · rw [gating_threshold_values.2]; norm_num
  · rw [gating_threshold_values.1]; norm_num

theorem XFloat.not_lt_of_le {a b : XFloat} (h : XFloat.le a b = true) : XFloat.lt b a = false := by
  cases a <;> cases b <;> simp_all [XFloat.le, XFloat.lt]

theorem exampleGating_inBounds (d c : XFloat) (score : XFloat) (only_position : Bool) :
    FuseMotionInBounds (exampleGating d) (exampleMatrix c) [exampleTrack score]
      [exampleTrack score] only_position := by
  refine ⟨rfl, rfl, fun i _ => ?_⟩
  simp [gatingRow, exampleGating]

theorem exampleGating_row (d : XFloat) (score : XFloat) (only_position : Bool) :
    (gatingRow (exampleGating d) [exampleTrack score] [exampleTrack score] only_position 0)[0]?
      = some d := by
  simp [gatingRow, exampleGating]

/-- C10: the gating threshold of `fuse_motion` is `chi2inv95[2] = 5.9915` with
`only_position` and `chi2inv95[4] = 9.4877` otherwise; in a call within bounds, every
cell `(i, j)` whose gating distance `d` is less than or equal to the threshold (equal
included) becomes `lambda * cost[i][j] + (1 - lambda) * d`, with `cost[i][j]` the value
before the call; a zero-area cost matrix is left untouched. -/
theorem fuse_motion_blend
    (gating_distance : KFStateSpaceVec XFloat → KFStateSpaceMatrix XFloat →
      List (DetVec XFloat) → Bool → List XFloat)
    (cost_matrix : CostMatrix) (tracks detections : List Track) (only_position : Bool)
    (lambda : XFloat) :
    gating_threshold true = 5.9915 ∧ gating_threshold false = 9.4877 ∧
    (FuseMotionInBounds gating_distance cost_matrix tracks detections only_position →
      ∀ i j d, i < cost_matrix.rows → j < cost_matrix.cols →
        (gatingRow gating_distance tracks detections only_position i)[j]? = some d →
        XFloat.le d (XFloat.fin (gating_threshold only_position)) = true →
        (fuse_motion gating_distance cost_matrix tracks detections only_position lambda).coeff i j
          = lambda * cost_matrix.coeff i j + (XFloat.fin 1 - lambda) * d) ∧
    (cost_matrix.rows = 0 ∨ cost_matrix.cols = 0 →
      fuse_motion gating_distance cost_matrix tracks detections only_position lambda
        = cost_matrix) := by
  refine ⟨gating_threshold_values.1, gating_threshold_values.2, ?_,
    fuse_motion_zero_area _ _ _ _ _ _⟩
  intro hb i j d hi hj hd hle
  rw [fuse_motion_coeff _ _ _ _ _ _ (by omega) (by omega) i j d (by rw [hb.1]; exact hi) hd,
    XFloat.not_lt_of_le hle]
  simp

/-- Witness for C10: a gating distance exactly equal to the threshold `9.4877`, prior
cost `0.5`, `lambda = 0.98`: the cell becomes `0.98 * 0.5 + 0.02 * 9.4877`. -/
theorem fuse_motion_blend_witness :
    (fuse_motion (exampleGating (XFloat.fin 9.4877)) (exampleMatrix (XFloat.fin 0.5))
        [exampleTrack (XFloat.fin 0.9)] [exampleTrack (XFloat.fin 0.9)] false
        (XFloat.fin 0.98)).coeff 0 0 = XFloat.fin (0.98 * 0.5 + (1 - 0.98) * 9.4877) := by
  have h := (fuse_motion_blend (exampleGating (XFloat.fin 9.4877))
      (exampleMatrix (XFloat.fin 0.5)) [exampleTrack (XFloat.fin 0.9)]
      [exampleTrack (XFloat.fin 0.9)] false (XFloat.fin 0.98)).2.2.1
    (exampleGating_inBounds _ _ _ _) 0 0 (XFloat.fin 9.4877) (by decide) (by decide)
    (exampleGating_row _ _ _)
    (by rw [gating_threshold_values.2]; simp only [XFloat.le, decide_eq_true_eq]; norm_num)
  rw [h]
  simp [exampleMatrix]

end Fusion

/-! ## Theorems: cost fusion in binary32 -/

section Binary32

theorem roundHalfEven_floor_le (m : ℚ) : ⌊m⌋ ≤ roundHalfEven m := by
  unfold roundHalfEven
  split_ifs <;> omega

theorem roundHalfEven_le_floor_succ (m : ℚ) : roundHalfEven m ≤ ⌊m⌋ + 1 := by
  unfold roundHalfEven
  split_ifs <;> omega

theorem roundHalfEven_intCast (k : ℤ) : roundHalfEven (k : ℚ) = k := by
  unfold roundHalfEven
  simp

theorem roundHalfEven_sub_le (m : ℚ) : |(roundHalfEven m : ℚ) - m| ≤ 1 / 2 := by
  have h1 := Int.floor_le m
  have h2 := Int.lt_floor_add_one m
  unfold roundHalfEven
  rw [abs_le]
  split_ifs with ha hb hc
  · constructor <;> linarith
  · push_cast
    constructor <;> linarith
  · have : m - ⌊m⌋ = 1 / 2 := le_antisymm (not_lt.mp hb) (not_lt.mp ha)
    constructor <;> linarith
  · have : m - ⌊m⌋ = 1 / 2 := le_antisymm (not_lt.mp hb) (not_lt.mp ha)
    push_cast
    constructor <;> linarith

theorem roundHalfEven_mono {m m' : ℚ} (h : m ≤ m') : roundHalfEven m ≤ roundHalfEven m' := by
  have hf : ⌊m⌋ ≤ ⌊m'⌋ := Int.floor_mono h
  rcases lt_or_eq_of_le hf with hlt | heq
  · calc roundHalfEven m ≤ ⌊m⌋ + 1 := roundHalfEven_le_floor_succ m
      _ ≤ ⌊m'⌋ := hlt
      _ ≤ roundHalfEven m' := roundHalfEven_floor_le m'
  · unfold roundHalfEven
    rw [← heq]
    have hr : m - ⌊m⌋ ≤ m' - ⌊m⌋ := by linarith
    split_ifs <;> first | omega | (exfalso; linarith)

theorem roundHalfEven_of_lt (m : ℚ) (k : ℤ) (h : |m - k| < 1 / 2) : roundHalfEven m = k := by
  rw [abs_lt] at h
  have h1 := roundHalfEven_sub_le m
  rw [abs_le] at h1
  have h2 : |((roundHalfEven m - k : ℤ) : ℚ)| < 1 := by
    rw [abs_lt]
    push_cast
    constructor <;> linarith [h.1, h.2, h1.1, h1.2]
  have h3 : |roundHalfEven m - k| < 1 := by exact_mod_cast h2
  have := Int.abs_lt_one_iff.mp h3
  omega

theorem ulp32_pos (q : ℚ) : 0 < ulp32 q := by
  unfold ulp32
  positivity

/-- The rounding error is at most half a spacing. -/
theorem nearest32_sub_le (q : ℚ) : |nearest32 q - q| ≤ ulp32 q / 2 := by
  have hu := ulp32_pos q
  have h := roundHalfEven_sub_le (q / ulp32 q)
  have e : nearest32 q - q = ((roundHalfEven (q / ulp32 q) : ℚ) - q / ulp32 q) * ulp32 q := by
    unfold nearest32
    field_simp
  rw [e, abs_mul, abs_of_pos hu]
  calc |(roundHalfEven (q / ulp32 q) : ℚ) - q / ulp32 q| * ulp32 q ≤ 1 / 2 * ulp32 q :=
        mul_le_mul_of_nonneg_right h hu.le
    _ = ulp32 q / 2 := by ring

/-- A point of the grid around `q` that lies below `q` lies below the rounded value. -/
theorem le_nearest32 (q : ℚ) (k : ℤ) (h : (k : ℚ) * ulp32 q ≤ q) :
    (k : ℚ) * ulp32 q ≤ nearest32 q := by
  have hu := ulp32_pos q
  have h1 : (k : ℚ) ≤ q / ulp32 q := by rwa [le_div_iff₀ hu]
  have h2 := roundHalfEven_mono h1
  rw [roundHalfEven_intCast] at h2
  unfold nearest32
  exact mul_le_mul_of_nonneg_right (by exact_mod_cast h2) hu.le

/-- A point of the grid around `q` that lies above `q` lies above the rounded value. -/
theorem nearest32_le (q : ℚ) (k : ℤ) (h : q ≤ (k : ℚ) * ulp32 q) :
    nearest32 q ≤ (k : ℚ) * ulp32 q := by
  have hu := ulp32_pos q
  have h1 : q / ulp32 q ≤ (k : ℚ) := by rwa [div_le_iff₀ hu]
  have h2 := roundHalfEven_mono h1
  rw [roundHalfEven_intCast] at h2
  unfold nearest32
  exact mul_le_mul_of_nonneg_right (by exact_mod_cast h2) hu.le

theorem nearest32_nonneg {q : ℚ} (h : 0 ≤ q) : 0 ≤ nearest32 q := by
  have := le_nearest32 q 0 (by simpa using h)
  simpa using this

theorem nearest32_nonpos {q : ℚ} (h : q ≤ 0) : nearest32 q ≤ 0 := by
  have := nearest32_le q 0 (by simpa using h)
  simpa using this

/-- The binade of a value of `[2^e, 2^(e+1))` with `e >= -126` is `e`. -/
theorem binade_eq {q : ℚ} {e : ℤ} (he : -126 ≤ e) (h1 : (2 : ℚ) ^ e ≤ |q|)
    (h2 : |q| < (2 : ℚ) ^ (e + 1)) : binade q = e := by
  have hpos : 0 < |q| := lt_of_lt_of_le (by positivity) h1
  have a1 : e ≤ Int.log 2 |q| := (Int.zpow_le_iff_le_log (by norm_num) hpos).mp (by exact_mod_cast h1)
  have a2 : Int.log 2 |q| < e + 1 := (Int.lt_zpow_iff_log_lt (by norm_num) hpos).mp (by exact_mod_cast h2)
  unfold binade
  rw [if_neg (abs_pos.mp hpos)]
  omega

/-- Below `2^-126` the binade is the lowest one. -/
theorem binade_subnormal {q : ℚ} (h : |q| < (2 : ℚ) ^ (-126 : ℤ)) : binade q = -126 := by
  unfold binade
  split_ifs with h0
  · rfl
  · have hpos : 0 < |q| := abs_pos.mpr h0
    have a2 : Int.log 2 |q| < -126 :=
      (Int.lt_zpow_iff_log_lt (by norm_num) hpos).mp (by exact_mod_cast h)
    omega

theorem binade_ge (q : ℚ) : -126 ≤ binade q := by
  unfold binade
  split_ifs <;> omega

/-- Every value lies below the upper end of its binade. -/
theorem lt_zpow_binade (q : ℚ) : |q| < (2 : ℚ) ^ (binade q + 1) := by
  unfold binade
  split_ifs with h0
  · rw [h0, abs_zero]
    positivity
  · have h := Int.lt_zpow_succ_log_self (b := 2) (by norm_num) |q|
    refine lt_of_lt_of_le (by exact_mod_cast h) ?_
    exact zpow_le_zpow_right₀ (by norm_num) (by omega)

/-- Above the subnormal range a value lies above the lower end of its binade. -/
theorem zpow_binade_le {q : ℚ} (h : (2 : ℚ) ^ (-126 : ℤ) ≤ |q|) : (2 : ℚ) ^ binade q ≤ |q| := by
  have hpos : 0 < |q| := lt_of_lt_of_le (by positivity) h
  have h1 : (-126 : ℤ) ≤ Int.log 2 |q| :=
    (Int.zpow_le_iff_le_log (by norm_num) hpos).mp (by exact_mod_cast h)
  unfold binade
  rw [if_neg (abs_pos.mp hpos), max_eq_left h1]
  exact_mod_cast Int.zpow_log_le_self (b := 2) (by norm_num) hpos

theorem binade_mono {x y : ℚ} (h : |x| ≤ |y|) : binade x ≤ binade y := by
  by_cases hx : x = 0
  · rw [hx]
    have : binade 0 = -126 := by simp [binade]
    rw [this]
    exact binade_ge y
  · have hxp : 0 < |x| := abs_pos.mpr hx
    have hy : y ≠ 0 := abs_pos.mp (lt_of_lt_of_le hxp h)
    unfold binade
    rw [if_neg hx, if_neg hy]
    exact max_le_max (Int.log_mono_right hxp h) le_rfl

theorem binade_neg (q : ℚ) : binade (-q) = binade q := by
  unfold binade
  simp

theorem ulp32_neg (q : ℚ) : ulp32 (-q) = ulp32 q := by
  unfold ulp32
  rw [binade_neg]

/-- The powers of two from the lower end of the binade upwards are points of the grid. -/
theorem zpow_eq_mul_ulp32 (q : ℚ) (k : ℤ) (hk : binade q - 23 ≤ k) :
    (2 : ℚ) ^ k = (((2 : ℤ) ^ (k - (binade q - 23)).toNat : ℤ) : ℚ) * ulp32 q := by
  unfold ulp32
  push_cast
  rw [← zpow_natCast, Int.toNat_of_nonneg (by omega), ← zpow_add₀ (by norm_num)]
  congr 1
  ring

/-- A non-negative value below a power of two of the grid rounds to at most that power. -/
theorem nearest32_le_zpow {q : ℚ} {k : ℤ} (hk : binade q - 23 ≤ k) (h : q ≤ (2 : ℚ) ^ k) :
    nearest32 q ≤ (2 : ℚ) ^ k := by
  rw [zpow_eq_mul_ulp32 q k hk] at h ⊢
  exact nearest32_le q _ h

/-- A value above a power of two of the grid rounds to at least that power. -/
theorem zpow_le_nearest32 {q : ℚ} {k : ℤ} (hk : binade q - 23 ≤ k) (h : (2 : ℚ) ^ k ≤ q) :
    (2 : ℚ) ^ k ≤ nearest32 q := by
  rw [zpow_eq_mul_ulp32 q k hk] at h ⊢
  exact le_nearest32 q _ h

theorem nearest32_zero : nearest32 0 = 0 := by
  simp [nearest32, roundHalfEven]

/-- Rounding is monotone on the non-negative values. -/
theorem nearest32_mono_nonneg {x y : ℚ} (h0 : 0 ≤ x) (h : x ≤ y) : nearest32 x ≤ nearest32 y := by
  have hy0 : 0 ≤ y := h0.trans h
  have hb : binade x ≤ binade y := binade_mono (by rwa [abs_of_nonneg h0, abs_of_nonneg hy0])
  rcases lt_or_eq_of_le hb with hlt | heq
  · have hy1 : (2 : ℚ) ^ binade y ≤ y := by
      by_cases hc : |y| < (2 : ℚ) ^ (-126 : ℤ)
      · have := binade_subnormal hc
        have := binade_ge x
        omega
      · have := zpow_binade_le (not_lt.mp hc)
        rwa [abs_of_nonneg hy0] at this
    have hx1 : x ≤ (2 : ℚ) ^ (binade x + 1) := by
      have := lt_zpow_binade x
      rw [abs_of_nonneg h0] at this
      exact this.le
    calc nearest32 x ≤ (2 : ℚ) ^ (binade x + 1) := nearest32_le_zpow (by omega) hx1
      _ ≤ (2 : ℚ) ^ binade y := zpow_le_zpow_right₀ (by norm_num) (by omega)
      _ ≤ nearest32 y := zpow_le_nearest32 (by omega) hy1
  · have hu : ulp32 x = ulp32 y := by unfold ulp32; rw [heq]
    unfold nearest32
    rw [hu]
    have hup := ulp32_pos y
    have h1 : x / ulp32 y ≤ y / ulp32 y := div_le_div_of_nonneg_right h hup.le
    exact mul_le_mul_of_nonneg_right (by exact_mod_cast roundHalfEven_mono h1) hup.le

theorem roundHalfEven_neg (m : ℚ) : roundHalfEven (-m) = -roundHalfEven m := by
  by_cases h : |m - roundHalfEven m| < 1 / 2
  · refine roundHalfEven_of_lt (-m) (-roundHalfEven m) ?_
    have e : -m - ((-roundHalfEven m : ℤ) : ℚ) = -(m - roundHalfEven m) := by push_cast; ring
    rw [e, abs_neg]
    exact h
  · have hle := roundHalfEven_sub_le m
    rw [abs_sub_comm] at hle
    have habs : |m - roundHalfEven m| = 1 / 2 := le_antisymm hle (not_lt.mp h)
    have h1 := Int.floor_le m
    have h2 := Int.lt_floor_add_one m
    have hfrac : m - ⌊m⌋ = 1 / 2 := by
      unfold roundHalfEven at habs
      split_ifs at habs with ha hb hc
      · rw [abs_of_nonneg (by linarith)] at habs
        exact habs
      · push_cast at habs
        rw [abs_of_nonpos (by linarith)] at habs
        linarith
      · exact le_antisymm (not_lt.mp hb) (not_lt.mp ha)
      · exact le_antisymm (not_lt.mp hb) (not_lt.mp ha)
    have hfl : ⌊-m⌋ = -⌊m⌋ - 1 := by
      rw [Int.floor_eq_iff]
      push_cast
      constructor <;> linarith
    have hfrac2 : -m - ((-⌊m⌋ - 1 : ℤ) : ℚ) = 1 / 2 := by push_cast; linarith
    unfold roundHalfEven
    rw [hfl, hfrac2, hfrac]
    norm_num
    split_ifs <;> omega

theorem nearest32_neg (q : ℚ) : nearest32 (-q) = -nearest32 q := by
  unfold nearest32
  rw [ulp32_neg, neg_div, roundHalfEven_neg]
  push_cast
  ring

/-- Rounding to the binary32 grid is monotone. -/
theorem nearest32_mono {x y : ℚ} (h : x ≤ y) : nearest32 x ≤ nearest32 y := by
  rcases le_total 0 x with hx | hx
  · exact nearest32_mono_nonneg hx h
  · rcases le_total 0 y with hy | hy
    · exact (nearest32_nonpos hx).trans (nearest32_nonneg hy)
    · have := nearest32_mono_nonneg (x := -y) (y := -x) (by linarith) (by linarith)
      rw [nearest32_neg, nearest32_neg] at this
      linarith

/-- Rounding to binary32 is monotone, overflow included. -/
theorem round32_mono {x y : ℚ} (h : x ≤ y) : XFloat.le (round32 x) (round32 y) = true := by
  have hm := nearest32_mono h
  unfold round32
  split_ifs <;> simp only [XFloat.le, decide_eq_true_eq] <;> first | rfl | linarith

/-- A non-negative exact result rounds to a non-negative value or overflows to `+inf`. -/
theorem round32_nonneg {x : ℚ} (h : 0 ≤ x) :
    round32 x = XFloat.pinf ∨ ∃ y : ℚ, 0 ≤ y ∧ round32 x = XFloat.fin y := by
  have hn := nearest32_nonneg h
  unfold round32
  split_ifs with h1 h2
  · exact Or.inl rfl
  · exfalso
    linarith [show (0 : ℚ) < 2 ^ 128 by positivity]
  · exact Or.inr ⟨_, hn, rfl⟩

/-- An exact result of `[0, 1]` rounds to a value of `[0, 1]` with an error of at most
`2^-25` (half the spacing `2^-24` below `1`). -/
theorem round32_unit {x : ℚ} (h0 : 0 ≤ x) (h1 : x ≤ 1) :
    ∃ y : ℚ, round32 x = XFloat.fin y ∧ 0 ≤ y ∧ y ≤ 1 ∧ |y - x| ≤ 1 / 2 ^ 25 := by
  have hn0 := nearest32_nonneg h0
  have hb : binade x ≤ 0 := by
    by_cases hx : x = 0
    · simp [binade, hx]
    · have hlt : |x| < (2 : ℚ) ^ ((0 : ℤ) + 1) := by
        rw [abs_of_nonneg h0]
        norm_num
        linarith
      by_cases hs : |x| < (2 : ℚ) ^ (-126 : ℤ)
      · rw [binade_subnormal hs]
        norm_num
      · have h3 := zpow_binade_le (not_lt.mp hs)
        by_contra hc
        have h4 : (2 : ℚ) ^ (1 : ℤ) ≤ (2 : ℚ) ^ binade x :=
          zpow_le_zpow_right₀ (by norm_num) (by omega)
        rw [abs_of_nonneg h0] at h3
        norm_num at h4
        linarith
  have hn1 : nearest32 x ≤ 1 := by
    have := nearest32_le_zpow (q := x) (k := 0) (by omega) (by simpa using h1)
    simpa using this
  have herr : |nearest32 x - x| ≤ 1 / 2 ^ 25 := by
    rcases eq_or_lt_of_le h1 with h1e | h1l
    · have hge : (1 : ℚ) ≤ nearest32 x := by
        have := zpow_le_nearest32 (q := x) (k := 0) (by omega) (by simp [h1e])
        simpa using this
      have hx1 : nearest32 x = 1 := le_antisymm hn1 hge
      rw [hx1, h1e]
      norm_num
    · have hb1 : binade x ≤ -1 := by
        by_contra hc
        have hb0 : binade x = 0 := by omega
        by_cases hs : |x| < (2 : ℚ) ^ (-126 : ℤ)
        · rw [binade_subnormal hs] at hb0
          omega
        · have h3 := zpow_binade_le (not_lt.mp hs)
          rw [hb0, abs_of_nonneg h0] at h3
          norm_num at h3
          linarith
      have hu : ulp32 x ≤ 1 / 2 ^ 24 := by
        unfold ulp32
        calc (2 : ℚ) ^ (binade x - 23) ≤ (2 : ℚ) ^ (-24 : ℤ) :=
              zpow_le_zpow_right₀ (by norm_num) (by omega)
          _ = 1 / 2 ^ 24 := by norm_num
      calc |nearest32 x - x| ≤ ulp32 x / 2 := nearest32_sub_le x
        _ ≤ 1 / 2 ^ 24 / 2 := by linarith
        _ = 1 / 2 ^ 25 := by norm_num
  refine ⟨nearest32 x, ?_, hn0, hn1, herr⟩
  unfold round32
  rw [if_neg (by linarith [show (1 : ℚ) < 2 ^ 128 by norm_num]),
    if_neg (by linarith [show (0 : ℚ) < 2 ^ 128 by positivity])]

/-- Evaluation of the rounding: in the binade `e`, a value whose quotient by the
spacing `2^(e-23)` is within `1/2` of the integer `k` rounds to `k * 2^(e-23)`. -/
theorem nearest32_eq_of {x : ℚ} (e k : ℤ) (he : -126 ≤ e) (h1 : (2 : ℚ) ^ e ≤ |x|)
    (h2 : |x| < (2 : ℚ) ^ (e + 1)) (hk : |x / (2 : ℚ) ^ (e - 23) - k| < 1 / 2) :
    nearest32 x = k * (2 : ℚ) ^ (e - 23) := by
  unfold nearest32 ulp32
  rw [binade_eq he h1 h2, roundHalfEven_of_lt _ k hk]

theorem round32_of_nearest32 {x y : ℚ} (h : nearest32 x = y) (hy : |y| < 2 ^ 128) :
    round32 x = XFloat.fin y := by
  rw [abs_lt] at hy
  unfold round32
  rw [h, if_neg (by linarith), if_neg (by linarith)]

/-- Rounding never yields `NaN`. -/
theorem round32_ne_nan (x : ℚ) : round32 x ≠ XFloat.nan := by
  unfold round32
  split_ifs <;> simp

theorem nearest32_def (q : ℚ) : nearest32 q = roundHalfEven (q / ulp32 q) * ulp32 q := rfl

/-- A rounded value is a point of the binary32 grid: rounding it again changes nothing. -/
theorem nearest32_idem (x : ℚ) : nearest32 (nearest32 x) = nearest32 x := by
  have key : ∀ x : ℚ, 0 ≤ x → nearest32 (nearest32 x) = nearest32 x := by
    intro x hx
    have hy0 := nearest32_nonneg hx
    have hxlt := lt_zpow_binade x
    rw [abs_of_nonneg hx] at hxlt
    have hyle : nearest32 x ≤ (2 : ℚ) ^ (binade x + 1) :=
      nearest32_le_zpow (by omega) hxlt.le
    rcases eq_or_lt_of_le hyle with heq | hlt
    · have hb : binade (nearest32 x) = binade x + 1 := by
        refine binade_eq (by have := binade_ge x; omega) ?_ ?_
        · rw [abs_of_nonneg hy0, heq]
        · rw [abs_of_nonneg hy0, heq]
          exact zpow_lt_zpow_right₀ (by norm_num) (by omega)
      have hgrid := zpow_eq_mul_ulp32 (nearest32 x) (binade x + 1) (by omega)
      rw [← heq] at hgrid
      have hu := ulp32_pos (nearest32 x)
      rw [nearest32_def (nearest32 x)]
      rw [show nearest32 x / ulp32 (nearest32 x)
          = (((2 : ℤ) ^ (binade x + 1 - (binade (nearest32 x) - 23)).toNat : ℤ) : ℚ) by
        rw [div_eq_iff hu.ne']
        exact hgrid, roundHalfEven_intCast]
      exact hgrid.symm
    · have hb : binade (nearest32 x) = binade x := by
        by_cases hs : |x| < (2 : ℚ) ^ (-126 : ℤ)
        · have hbx := binade_subnormal hs
          rw [hbx] at hlt ⊢
          by_cases hs2 : |nearest32 x| < (2 : ℚ) ^ (-126 : ℤ)
          · exact binade_subnormal hs2
          · exact binade_eq le_rfl (not_lt.mp hs2) (by rw [abs_of_nonneg hy0]; exact hlt)
        · have h3 := zpow_binade_le (not_lt.mp hs)
          rw [abs_of_nonneg hx] at h3
          refine binade_eq (binade_ge x) ?_ ?_
          · rw [abs_of_nonneg hy0]
            exact zpow_le_nearest32 (by omega) h3
          · rw [abs_of_nonneg hy0]
            exact hlt
      have hu : ulp32 (nearest32 x) = ulp32 x := by unfold ulp32; rw [hb]
      have hup := ulp32_pos x
      rw [nearest32_def (nearest32 x), hu]
      have : nearest32 x / ulp32 x = (roundHalfEven (x / ulp32 x) : ℚ) := by
        rw [nearest32_def x]
        field_simp
      rw [this, roundHalfEven_intCast]
      rfl
  rcases le_total 0 x with hx | hx
  · exact key x hx
  · have := key (-x) (by linarith)
    rw [nearest32_neg, nearest32_neg, neg_inj] at this
    exact this

theorem binade_le {q : ℚ} {e : ℤ} (he : -126 ≤ e) (h : |q| < (2 : ℚ) ^ (e + 1)) :
    binade q ≤ e := by
  unfold binade
  split_ifs with h0
  · exact he
  · have hpos : 0 < |q| := abs_pos.mpr h0
    have a2 : Int.log 2 |q| < e + 1 :=
      (Int.lt_zpow_iff_log_lt (by norm_num) hpos).mp (by exact_mod_cast h)
    omega

theorem round32_zero : round32 0 = XFloat.fin 0 :=
  round32_of_nearest32 nearest32_zero (by norm_num)

theorem round32_one : round32 1 = XFloat.fin 1 := by
  refine round32_of_nearest32 ?_ (by norm_num [abs_lt])
  rw [nearest32_eq_of 0 (2 ^ 23) (by norm_num) (by norm_num) (by norm_num) (by norm_num)]
  norm_num

/-- An exact result of magnitude at most `2^128 - 2^104 + 1` (the largest binary32
value plus one) does not overflow. -/
theorem round32_finite {x : ℚ} (h : |x| ≤ 2 ^ 128 - 2 ^ 104 + 1) :
    ∃ t : ℚ, round32 x = XFloat.fin t := by
  have hb : binade x ≤ 127 := binade_le (by norm_num) (lt_of_le_of_lt h (by norm_num))
  have hu : ulp32 x ≤ 2 ^ 104 := by
    unfold ulp32
    calc (2 : ℚ) ^ (binade x - 23) ≤ (2 : ℚ) ^ (104 : ℤ) :=
          zpow_le_zpow_right₀ (by norm_num) (by omega)
      _ = 2 ^ 104 := by norm_num
  have herr := nearest32_sub_le x
  refine ⟨nearest32 x, round32_of_nearest32 rfl ?_⟩
  have h1 : |nearest32 x| ≤ |nearest32 x - x| + |x| := by
    have := abs_add (nearest32 x - x) x
    simpa using this
  have : (2 : ℚ) ^ 104 / 2 + (2 ^ 128 - 2 ^ 104 + 1) < 2 ^ 128 := by norm_num
  linarith

theorem IsBinary32.nearest32_eq {q : ℚ} (h : IsBinary32 q) : nearest32 q = q := by
  unfold IsBinary32 round32 at h
  split_ifs at h
  exact XFloat.fin.inj h

theorem IsBinary32.lt_two_pow {q : ℚ} (h : IsBinary32 q) : |q| < 2 ^ 128 := by
  have hn := h.nearest32_eq
  unfold IsBinary32 round32 at h
  rw [abs_lt]
  split_ifs at h with h1 h2
  rw [hn] at h1 h2
  constructor <;> linarith

/-- A binary32 value is a multiple of the spacing of its binade. -/
theorem IsBinary32.eq_mul_ulp32 {q : ℚ} (h : IsBinary32 q) :
    q = (roundHalfEven (q / ulp32 q) : ℚ) * ulp32 q := by
  have := h.nearest32_eq
  rw [nearest32_def] at this
  exact this.symm

/-- The largest binary32 value is `2^128 - 2^104`. -/
theorem IsBinary32.le_max {q : ℚ} (h : IsBinary32 q) : |q| ≤ 2 ^ 128 - 2 ^ 104 := by
  by_cases h1 : |q| < (2 : ℚ) ^ (127 : ℤ)
  · have : (2 : ℚ) ^ (127 : ℤ) ≤ 2 ^ 128 - 2 ^ 104 := by norm_num
    linarith
  · have hlt : |q| < (2 : ℚ) ^ ((127 : ℤ) + 1) := by
      have e : (2 : ℚ) ^ ((127 : ℤ) + 1) = 2 ^ 128 := by norm_num
      rw [e]
      exact h.lt_two_pow
    have hb := binade_eq (by norm_num) (not_lt.mp h1) hlt
    have hq := h.eq_mul_ulp32
    have hu : ulp32 q = 2 ^ 104 := by
      unfold ulp32
      rw [hb]
      norm_num
    rw [hu] at hq
    set k := roundHalfEven (q / 2 ^ 104)
    have hk : |(k : ℚ)| < 2 ^ 24 := by
      have h3 := h.lt_two_pow
      rw [hq, abs_mul, abs_of_pos (show (0 : ℚ) < 2 ^ 104 by positivity)] at h3
      have : |(k : ℚ)| * 2 ^ 104 < 2 ^ 24 * 2 ^ 104 := by
        norm_num at h3 ⊢
        linarith
      exact lt_of_mul_lt_mul_right this (by positivity)
    have hk2 : |k| < 2 ^ 24 := by exact_mod_cast hk
    have hk3 : |k| ≤ 2 ^ 24 - 1 := by omega
    have hk4 : |(k : ℚ)| ≤ 2 ^ 24 - 1 := by exact_mod_cast hk3
    rw [hq, abs_mul, abs_of_pos (show (0 : ℚ) < 2 ^ 104 by positivity)]
    calc |(k : ℚ)| * 2 ^ 104 ≤ (2 ^ 24 - 1) * 2 ^ 104 :=
          mul_le_mul_of_nonneg_right hk4 (by positivity)
      _ = 2 ^ 128 - 2 ^ 104 := by norm_num

/-- Below `1` the largest binary32 value is `1 - 2^-24`. -/
theorem IsBinary32.le_pred_one {q : ℚ} (h : IsBinary32 q) (h1 : q < 1) : q ≤ 1 - 1 / 2 ^ 24 := by
  by_cases h2 : q < 1 / 2
  · have : (1 : ℚ) / 2 ≤ 1 - 1 / 2 ^ 24 := by norm_num
    linarith
  · have h2' : (1 : ℚ) / 2 ≤ q := not_lt.mp h2
    have hb : binade q = -1 :=
      binade_eq (by norm_num) (by rw [abs_of_nonneg (by linarith)]; norm_num; linarith)
        (by rw [abs_of_nonneg (by linarith)]; norm_num; exact h1)
    have hq := h.eq_mul_ulp32
    have hu : ulp32 q = 1 / 2 ^ 24 := by
      unfold ulp32
      rw [hb]
      norm_num
    rw [hu] at hq
    set k := roundHalfEven (q / (1 / 2 ^ 24))
    have hk : (k : ℚ) < 2 ^ 24 := by
      rw [hq] at h1
      have : (k : ℚ) * (1 / 2 ^ 24) < 2 ^ 24 * (1 / 2 ^ 24) := by
        norm_num at h1 ⊢
        linarith
      exact lt_of_mul_lt_mul_right this (by positivity)
    have hk2 : k < 2 ^ 24 := by exact_mod_cast hk
    have hk3 : k ≤ 2 ^ 24 - 1 := by omega
    have hk4 : (k : ℚ) ≤ 2 ^ 24 - 1 := by exact_mod_cast hk3
    rw [hq]
    calc (k : ℚ) * (1 / 2 ^ 24) ≤ (2 ^ 24 - 1) * (1 / 2 ^ 24) :=
          mul_le_mul_of_nonneg_right hk4 (by positivity)
      _ = 1 - 1 / 2 ^ 24 := by norm_num

theorem fuse_score32_coeff (cost_matrix : CostMatrix) (detections : List Track) (i j : ℕ)
    (hi : i < cost_matrix.rows) (hj : j < cost_matrix.cols) :
    (fuse_score32 cost_matrix detections).coeff i j =
      XFloat.sub32 (XFloat.fin 1)
        (XFloat.mul32 (XFloat.sub32 (XFloat.fin 1) (cost_matrix.coeff i j))
          (scoreAt detections j)) := by
  unfold fuse_score32
  rw [if_neg (by omega)]
  rw [foldl_range_rows _ (fun _ => cost_matrix.cols)
    (fun _ b c => XFloat.sub32 (XFloat.fin 1)
      (XFloat.mul32 (XFloat.sub32 (XFloat.fin 1) c) (scoreAt detections b)))
    (fun cm i => foldl_range_cols _ i
      (fun b c => XFloat.sub32 (XFloat.fin 1)
        (XFloat.mul32 (XFloat.sub32 (XFloat.fin 1) c) (scoreAt detections b)))
      (fun _ _ => rfl) _ cm) _ _]
  simp [hi, hj]

theorem XFloat.sub32_fin (a b : ℚ) :
    XFloat.sub32 (XFloat.fin a) (XFloat.fin b) = round32 (a - b) := by
  simp [XFloat.sub32, XFloat.round, XFloat.sub_def, XFloat.add, XFloat.neg, sub_eq_add_neg]

theorem XFloat.mul32_fin (a b : ℚ) :
    XFloat.mul32 (XFloat.fin a) (XFloat.fin b) = round32 (a * b) := by
  simp [XFloat.mul32, XFloat.round, XFloat.mul_def, XFloat.mul]

theorem XFloat.add32_fin (a b : ℚ) :
    XFloat.add32 (XFloat.fin a) (XFloat.fin b) = round32 (a + b) := by
  simp [XFloat.add32, XFloat.round, XFloat.add_def, XFloat.add]

/-- In binary32, with score `1.0`, an entry of `[0, 1]` moves by at most `2^-24`: the
difference `1 - c` is rounded, the product with `1.0` is exact, and the last difference
is rounded. -/
theorem fuse32_one {c : ℚ} (h0 : 0 ≤ c) (h1 : c ≤ 1) :
    ∃ y : ℚ, XFloat.sub32 (XFloat.fin 1)
        (XFloat.mul32 (XFloat.sub32 (XFloat.fin 1) (XFloat.fin c)) (XFloat.fin 1))
      = XFloat.fin y ∧ |y - c| ≤ 1 / 2 ^ 24 := by
  obtain ⟨t, ht, ht0, ht1, hte⟩ := round32_unit (x := 1 - c) (by linarith) (by linarith)
  have htn : nearest32 (1 - c) = t := by
    unfold round32 at ht
    split_ifs at ht
    exact XFloat.fin.inj ht
  have hidem : round32 (t * 1) = XFloat.fin t := by
    rw [mul_one]
    refine round32_of_nearest32 (by rw [← htn, nearest32_idem]) ?_
    rw [abs_of_nonneg ht0]
    exact lt_of_le_of_lt ht1 (by norm_num)
  obtain ⟨y, hy, _, _, hye⟩ := round32_unit (x := 1 - t) (by linarith) (by linarith)
  refine ⟨y, ?_, ?_⟩
  · rw [XFloat.sub32_fin, ht, XFloat.mul32_fin, hidem, XFloat.sub32_fin, hy]
  · rw [abs_le] at hte hye ⊢
    have : (1 : ℚ) / 2 ^ 24 = 1 / 2 ^ 25 + 1 / 2 ^ 25 := by norm_num
    constructor <;> linarith [hte.1, hte.2, hye.1, hye.2]

/-- In binary32, with score `0.0`, a binary32 entry becomes exactly `1.0`. -/
theorem fuse32_zero {c : ℚ} (hc : IsBinary32 c) :
    XFloat.sub32 (XFloat.fin 1)
        (XFloat.mul32 (XFloat.sub32 (XFloat.fin 1) (XFloat.fin c)) (XFloat.fin 0))
      = XFloat.fin 1 := by
  obtain ⟨t, ht⟩ := round32_finite (x := 1 - c) (by
    have h1 := hc.le_max
    have h2 : |1 - c| ≤ |(1 : ℚ)| + |c| := abs_sub _ _
    rw [abs_one] at h2
    linarith)
  rw [XFloat.sub32_fin, ht, XFloat.mul32_fin, mul_zero, round32_zero, XFloat.sub32_fin,
    sub_zero, round32_one]

/-- In binary32, for a cost and a score of `[0, 1]`, the fused cost lies in `[0, 1]` and
is below the cost by at most three roundings of `2^-25` each. -/
theorem fuse32_unit {c s : ℚ} (hc0 : 0 ≤ c) (hc1 : c ≤ 1) (hs0 : 0 ≤ s) (hs1 : s ≤ 1) :
    ∃ y : ℚ, XFloat.sub32 (XFloat.fin 1)
        (XFloat.mul32 (XFloat.sub32 (XFloat.fin 1) (XFloat.fin c)) (XFloat.fin s))
      = XFloat.fin y ∧ 0 ≤ y ∧ y ≤ 1 ∧ c - 3 / 2 ^ 25 ≤ y := by
  obtain ⟨t, ht, ht0, ht1, hte⟩ := round32_unit (x := 1 - c) (by linarith) (by linarith)
  have hts0 : 0 ≤ t * s := mul_nonneg ht0 hs0
  have hts1 : t * s ≤ 1 := by
    calc t * s ≤ 1 * 1 := mul_le_mul ht1 hs1 hs0 (by norm_num)
      _ = 1 := by norm_num
  obtain ⟨p, hp, hp0, hp1, hpe⟩ := round32_unit hts0 hts1
  obtain ⟨y, hy, hy0, hy1, hye⟩ := round32_unit (x := 1 - p) (by linarith) (by linarith)
  refine ⟨y, ?_, hy0, hy1, ?_⟩
  · rw [XFloat.sub32_fin, ht, XFloat.mul32_fin, hp, XFloat.sub32_fin, hy]
  · rw [abs_le] at hte hpe hye
    have h1 : t * s ≤ t := by
      calc t * s ≤ t * 1 := mul_le_mul_of_nonneg_left hs1 ht0
        _ = t := mul_one t
    have : (3 : ℚ) / 2 ^ 25 = 1 / 2 ^ 25 + 1 / 2 ^ 25 + 1 / 2 ^ 25 := by norm_num
    linarith [hte.1, hte.2, hpe.1, hpe.2, hye.1, hye.2]

theorem XFloat.le_pinf {x : XFloat} (h : x ≠ XFloat.nan) : XFloat.le x XFloat.pinf = true := by
  cases x <;> simp_all [XFloat.le]

theorem XFloat.ninf_le {x : XFloat} (h : x ≠ XFloat.nan) : XFloat.le XFloat.ninf x = true := by
  cases x <;> simp_all [XFloat.le]

/-- The three outcomes of a rounding. -/
theorem round32_cases (x : ℚ) :
    (round32 x = XFloat.pinf ∧ 2 ^ 128 ≤ nearest32 x) ∨
    (round32 x = XFloat.ninf ∧ nearest32 x ≤ -2 ^ 128) ∨
    (round32 x = XFloat.fin (nearest32 x) ∧ -2 ^ 128 < nearest32 x ∧ nearest32 x < 2 ^ 128) := by
  unfold round32
  split_ifs with h1 h2
  · exact Or.inl ⟨rfl, h1⟩
  · exact Or.inr (Or.inl ⟨rfl, h2⟩)
  · exact Or.inr (Or.inr ⟨rfl, not_le.mp h2, not_le.mp h1⟩)

theorem XFloat.sub32_one_pinf : XFloat.sub32 (XFloat.fin 1) XFloat.pinf = XFloat.ninf := rfl

theorem XFloat.sub32_one_ninf : XFloat.sub32 (XFloat.fin 1) XFloat.ninf = XFloat.pinf := rfl

/-- The binary32 difference `1 - x` is antitone in a rounded `x`. -/
theorem sub32_one_antitone {x y : ℚ} (h : x ≤ y) :
    XFloat.le (XFloat.sub32 (XFloat.fin 1) (round32 y))
      (XFloat.sub32 (XFloat.fin 1) (round32 x)) = true := by
  have hm := nearest32_mono h
  have hpos : (0 : ℚ) < 2 ^ 128 := by positivity
  rcases round32_cases y with ⟨hy, by1⟩ | ⟨hy, by1⟩ | ⟨hy, by1, by2⟩ <;>
    rcases round32_cases x with ⟨hx, bx1⟩ | ⟨hx, bx1⟩ | ⟨hx, bx1, bx2⟩ <;>
    rw [hx, hy]
  · rfl
  · rfl
  · rw [XFloat.sub32_one_pinf, XFloat.sub32_fin]
    exact XFloat.ninf_le (round32_ne_nan _)
  · exfalso; linarith
  · rfl
  · exfalso; linarith
  · exfalso; linarith
  · rw [XFloat.sub32_one_ninf, XFloat.sub32_fin]
    exact XFloat.le_pinf (round32_ne_nan _)
  · rw [XFloat.sub32_fin, XFloat.sub32_fin]
    exact round32_mono (by linarith)

/-- In binary32, for a binary32 cost `c <= 1`, the fused cost is non-increasing in the
score. -/
theorem fuse32_antitone {c s s2 : ℚ} (hc : IsBinary32 c) (hc1 : c ≤ 1) (hs : s ≤ s2) :
    XFloat.le
      (XFloat.sub32 (XFloat.fin 1)
        (XFloat.mul32 (XFloat.sub32 (XFloat.fin 1) (XFloat.fin c)) (XFloat.fin s2)))
      (XFloat.sub32 (XFloat.fin 1)
        (XFloat.mul32 (XFloat.sub32 (XFloat.fin 1) (XFloat.fin c)) (XFloat.fin s))) = true := by
  obtain ⟨t, ht⟩ := round32_finite (x := 1 - c) (by
    have h1 := hc.le_max
    have h2 : |1 - c| ≤ |(1 : ℚ)| + |c| := abs_sub _ _
    rw [abs_one] at h2
    linarith)
  have ht0 : 0 ≤ t := by
    rcases round32_nonneg (x := 1 - c) (by linarith) with h | ⟨y, hy0, hy⟩
    · rw [ht] at h
      exact absurd h (by simp)
    · rw [ht] at hy
      rw [XFloat.fin.inj hy]
      exact hy0
  rw [XFloat.sub32_fin, ht, XFloat.mul32_fin, XFloat.mul32_fin]
  exact sub32_one_antitone (mul_le_mul_of_nonneg_left hs ht0)

theorem fuseMotionCell32_eq (thr : ℚ) (lambda : XFloat) (cm : CostMatrix) (i j : ℕ)
    (d : XFloat) :
    fuseMotionCell32 thr lambda cm i j d =
      cm.set i j (XFloat.add32
        (XFloat.mul32 lambda
          (if XFloat.lt (XFloat.fin thr) d then XFloat.pinf else cm.coeff i j))
        (XFloat.mul32 (XFloat.sub32 (XFloat.fin 1) lambda) d)) := by
  unfold fuseMotionCell32
  refine CostMatrix.eq_of_coeff ?_ ?_ (fun a b => ?_)
  · split <;> rfl
  · split <;> rfl
  · by_cases hab : a = i ∧ b = j
    · split <;> simp [CostMatrix.set, hab]
    · split <;> simp [CostMatrix.set, hab]

theorem fuse_motion32_coeff
    (gating_distance : KFStateSpaceVec XFloat → KFStateSpaceMatrix XFloat →
      List (DetVec XFloat) → Bool → List XFloat)
    (cost_matrix : CostMatrix) (tracks detections : List Track) (only_position : Bool)
    (lambda : XFloat) (hr : cost_matrix.rows ≠ 0) (hc : cost_matrix.cols ≠ 0) (i j : ℕ)
    (d : XFloat) (hi : i < tracks.length)
    (hd : (gatingRow gating_distance tracks detections only_position i)[j]? = some d) :
    (fuse_motion32 gating_distance cost_matrix tracks detections only_position lambda).coeff i j
      = XFloat.add32
        (XFloat.mul32 lambda
          (if XFloat.lt (XFloat.fin (gating_threshold only_position)) d
            then XFloat.pinf else cost_matrix.coeff i j))
        (XFloat.mul32 (XFloat.sub32 (XFloat.fin 1) lambda) d) := by
  have hfold : fuse_motion32 gating_distance cost_matrix tracks detections only_position lambda
      = { cost_matrix with coeff := fun a b =>
          (if a < tracks.length ∧
              b < (gatingRow gating_distance tracks detections only_position a).length then
            XFloat.add32
              (XFloat.mul32 lambda
                (if XFloat.lt (XFloat.fin (gating_threshold only_position))
                    ((gatingRow gating_distance tracks detections only_position a).getD b
                      XFloat.nan)
                  then XFloat.pinf else cost_matrix.coeff a b))
              (XFloat.mul32 (XFloat.sub32 (XFloat.fin 1) lambda)
                ((gatingRow gating_distance tracks detections only_position a).getD b
                  XFloat.nan))
          else cost_matrix.coeff a b) } := by
    unfold fuse_motion32
    rw [if_neg (by simp [hr, hc])]
    exact foldl_range_rows _
      (fun a => (gatingRow gating_distance tracks detections only_position a).length)
      (fun a b c => XFloat.add32
        (XFloat.mul32 lambda
          (if XFloat.lt (XFloat.fin (gating_threshold only_position))
              ((gatingRow gating_distance tracks detections only_position a).getD b XFloat.nan)
            then XFloat.pinf else c))
        (XFloat.mul32 (XFloat.sub32 (XFloat.fin 1) lambda)
          ((gatingRow gating_distance tracks detections only_position a).getD b XFloat.nan)))
      (fun cm i => foldl_range_cols _ i
        (fun b c => XFloat.add32
          (XFloat.mul32 lambda
            (if XFloat.lt (XFloat.fin (gating_threshold only_position))
                ((gatingRow gating_distance tracks detections only_position i).getD b
                  XFloat.nan)
              then XFloat.pinf else c))
          (XFloat.mul32 (XFloat.sub32 (XFloat.fin 1) lambda)
            ((gatingRow gating_distance tracks detections only_position i).getD b
              XFloat.nan)))
        (fun cm j => fuseMotionCell32_eq _ _ cm i j _) _ cm) _ _
  rw [hfold]
  obtain ⟨hj, hjd⟩ := List.getElem?_eq_some_iff.mp hd
  have hget : (gatingRow gating_distance tracks detections only_position i).getD j XFloat.nan
      = d := by
    rw [List.getD_eq_getElem?_getD, hd]
    rfl
  simp only [hi, hj, and_self, if_true, hget]

/-- In binary32, for a binary32 `lambda` of `(0, 1)` and a gating distance above a
positive threshold, the blend with a vetoed cell is `+infinity`. -/
theorem veto_blend32 {thr l : ℚ} (hthr : 0 < thr) (hl0 : 0 < l) (hl1 : l < 1)
    (hl : IsBinary32 l) (d : XFloat) (hgt : XFloat.lt (XFloat.fin thr) d = true) :
    XFloat.add32 (XFloat.mul32 (XFloat.fin l) XFloat.pinf)
      (XFloat.mul32 (XFloat.sub32 (XFloat.fin 1) (XFloat.fin l)) d) = XFloat.pinf := by
  have h1 : XFloat.mul32 (XFloat.fin l) XFloat.pinf = XFloat.pinf := by
    simp [XFloat.mul32, XFloat.round, XFloat.mul_def, XFloat.mul, XFloat.infMul, hl0, hl0.ne']
  have hle := hl.le_pred_one hl1
  obtain ⟨t, ht, ht0, ht1, _⟩ := round32_unit (x := 1 - l) (by linarith) (by linarith)
  have htpos : 0 < t := by
    have hb : binade (1 - l) ≤ -1 :=
      binade_le (by norm_num) (by rw [abs_of_nonneg (by linarith)]; norm_num; exact hl0)
    have h2 : (2 : ℚ) ^ (-24 : ℤ) ≤ nearest32 (1 - l) :=
      zpow_le_nearest32 (by omega) (by norm_num; linarith)
    have htn : nearest32 (1 - l) = t := by
      unfold round32 at ht
      split_ifs at ht
      exact XFloat.fin.inj ht
    rw [htn] at h2
    exact lt_of_lt_of_le (by positivity) h2
  rw [h1, XFloat.sub32_fin, ht]
  rcases d with q | _ | _ | _
  · have hq : 0 < q := by
      have : thr < q := by simpa [XFloat.lt] using hgt
      linarith
    rw [XFloat.mul32_fin]
    rcases round32_nonneg (x := t * q) (mul_nonneg ht0 hq.le) with h | ⟨y, _, hy⟩
    · rw [h]; rfl
    · rw [hy]; rfl
  · simp [XFloat.add32, XFloat.mul32, XFloat.round, XFloat.add_def, XFloat.mul_def, XFloat.add,
      XFloat.mul, XFloat.infMul, htpos, htpos.ne']
  · simp [XFloat.lt] at hgt
  · simp [XFloat.lt] at hgt

theorem exampleTenth_isBinary32 : IsBinary32 exampleTenth := by
  unfold exampleTenth
  refine round32_of_nearest32 ?_ (by norm_num [abs_lt])
  rw [nearest32_eq_of (-4) 13421773 (by norm_num) (by norm_num [abs_of_nonneg])
    (by norm_num [abs_of_nonneg]) (by norm_num [abs_lt])]
  norm_num

theorem exampleFifth_isBinary32 : IsBinary32 exampleFifth := by
  unfold exampleFifth
  refine round32_of_nearest32 ?_ (by norm_num [abs_lt])
  rw [nearest32_eq_of (-3) 13421773 (by norm_num) (by norm_num [abs_of_nonneg])
    (by norm_num [abs_of_nonneg]) (by norm_num [abs_lt])]
  norm_num

/-- In binary32, `1 - (1 - 0.1f) * 1` is `1677722 / 2^24 = 0.100000023...`. -/
theorem fuse32_tenth :
    XFloat.sub32 (XFloat.fin 1)
        (XFloat.mul32 (XFloat.sub32 (XFloat.fin 1) (XFloat.fin exampleTenth)) (XFloat.fin 1))
      = XFloat.fin (1677722 / 16777216) := by
  have h1 : round32 (1 - exampleTenth) = XFloat.fin (15099494 / 16777216) := by
    unfold exampleTenth
    refine round32_of_nearest32 ?_ (by norm_num [abs_lt])
    rw [nearest32_eq_of (-1) 15099494 (by norm_num) (by norm_num [abs_of_nonneg])
      (by norm_num [abs_of_nonneg]) (by norm_num [abs_lt])]
    norm_num
  have h2 : round32 (15099494 / 16777216 * 1) = XFloat.fin (15099494 / 16777216) := by
    refine round32_of_nearest32 ?_ (by norm_num [abs_lt])
    rw [nearest32_eq_of (-1) 15099494 (by norm_num) (by norm_num [abs_of_nonneg])
      (by norm_num [abs_of_nonneg]) (by norm_num [abs_lt])]
    norm_num
  have h3 : round32 (1 - 15099494 / 16777216) = XFloat.fin (1677722 / 16777216) := by
    refine round32_of_nearest32 ?_ (by norm_num [abs_lt])
    rw [nearest32_eq_of (-4) 13421776 (by norm_num) (by norm_num [abs_of_nonneg])
      (by norm_num [abs_of_nonneg]) (by norm_num [abs_lt])]
    norm_num
  rw [XFloat.sub32_fin, h1, XFloat.mul32_fin, h2, XFloat.sub32_fin, h3]

/-- In binary32, `1 - (1 - 0.2f) * 1` is `3355443 / 2^24 = 0.199999988...`. -/
theorem fuse32_fifth :
    XFloat.sub32 (XFloat.fin 1)
        (XFloat.mul32 (XFloat.sub32 (XFloat.fin 1) (XFloat.fin exampleFifth)) (XFloat.fin 1))
      = XFloat.fin (3355443 / 16777216) := by
  have h1 : round32 (1 - exampleFifth) = XFloat.fin (13421773 / 16777216) := by
    unfold exampleFifth
    refine round32_of_nearest32 ?_ (by norm_num [abs_lt])
    rw [nearest32_eq_of (-1) 13421773 (by norm_num) (by norm_num [abs_of_nonneg])
      (by norm_num [abs_of_nonneg]) (by norm_num [abs_lt])]
    norm_num
  have h2 : round32 (13421773 / 16777216 * 1) = XFloat.fin (13421773 / 16777216) := by
    refine round32_of_nearest32 ?_ (by norm_num [abs_lt])
    rw [nearest32_eq_of (-1) 13421773 (by norm_num) (by norm_num [abs_of_nonneg])
      (by norm_num [abs_of_nonneg]) (by norm_num [abs_lt])]
    norm_num
  have h3 : round32 (1 - 13421773 / 16777216) = XFloat.fin (3355443 / 16777216) := by
    refine round32_of_nearest32 ?_ (by norm_num [abs_lt])
    rw [nearest32_eq_of (-3) 13421772 (by norm_num) (by norm_num [abs_of_nonneg])
      (by norm_num [abs_of_nonneg]) (by norm_num [abs_lt])]
    norm_num
  rw [XFloat.sub32_fin, h1, XFloat.mul32_fin, h2, XFloat.sub32_fin, h3]

theorem exampleLambda_isBinary32 : IsBinary32 exampleLambda := by
  unfold exampleLambda
  refine round32_of_nearest32 ?_ (by norm_num [abs_lt])
  rw [nearest32_eq_of (-1) 16441672 (by norm_num) (by norm_num [abs_of_nonneg])
    (by norm_num [abs_of_nonneg]) (by norm_num [abs_lt])]
  norm_num

theorem scoreAt_of_forall {detections : List Track} {v : XFloat}
    (hv : ∀ d ∈ detections, d.get_score = v) {j : ℕ} (hj : j < detections.length) :
    scoreAt detections j = v := by
  rw [scoreAt_of_getElem? (List.getElem?_eq_getElem hj)]
  exact hv _ (List.getElem_mem _)

/-- C8, as stated, fails in both halves: in binary32, with score `1.0`, the entry `0.1f`
becomes `0.100000023...` (`1 - 0.1f` is rounded); with score `0.0`, the entry `+infinity`
becomes `NaN` (`1 - inf = -inf`, `-inf * 0 = NaN`). -/
theorem fuse_score32_scores_counterexample :
    IsBinary32 exampleTenth ∧
    (fuse_score32 (exampleMatrix (XFloat.fin exampleTenth)) [exampleTrack (XFloat.fin 1)]).coeff
        0 0 = XFloat.fin (1677722 / 16777216) ∧
    XFloat.fin (1677722 / 16777216) ≠ XFloat.fin exampleTenth ∧
    (fuse_score32 (exampleMatrix XFloat.pinf) [exampleTrack (XFloat.fin 0)]).coeff 0 0
      = XFloat.nan := by
  refine ⟨exampleTenth_isBinary32, ?_, ?_, ?_⟩
  · rw [fuse_score32_coeff _ _ 0 0 (by decide) (by decide)]
    exact fuse32_tenth
  · intro h
    have := XFloat.fin.inj h
    unfold exampleTenth at this
    norm_num at this
  · rw [fuse_score32_coeff _ _ 0 0 (by decide) (by decide)]
    rfl

/-- C8, amended: in binary32, with one detection per column, if every detection has
score `1.0`, `fuse_score` changes an entry of `[0, 1]` by at most `2^-24`; if every
detection has score `0.0`, it sets every finite binary32 entry to `1.0`. -/
theorem fuse_score32_unit_and_zero_scores (cost_matrix : CostMatrix) (detections : List Track)
    (hlen : detections.length = cost_matrix.cols) :
    ((∀ d ∈ detections, d.get_score = XFloat.fin 1) →
      ∀ i j c, i < cost_matrix.rows → j < cost_matrix.cols →
        cost_matrix.coeff i j = XFloat.fin c → 0 ≤ c → c ≤ 1 →
        ∃ y : ℚ, (fuse_score32 cost_matrix detections).coeff i j = XFloat.fin y ∧
          |y - c| ≤ 1 / 2 ^ 24) ∧
    ((∀ d ∈ detections, d.get_score = XFloat.fin 0) →
      ∀ i j c, i < cost_matrix.rows → j < cost_matrix.cols →
        cost_matrix.coeff i j = XFloat.fin c → IsBinary32 c →
        (fuse_score32 cost_matrix detections).coeff i j = XFloat.fin 1) := by
  refine ⟨fun h1 i j c hi hj hc hc0 hc1 => ?_, fun h0 i j c hi hj hc hb => ?_⟩
  · rw [fuse_score32_coeff _ _ i j hi hj, scoreAt_of_forall h1 (by omega), hc]
    exact fuse32_one hc0 hc1
  · rw [fuse_score32_coeff _ _ i j hi hj, scoreAt_of_forall h0 (by omega), hc]
    exact fuse32_zero hb

/-- Witness for C8 (amended): the entry `0.1f`: with score `1.0` it moves by at most
`2^-24`, with score `0.0` it becomes `1.0`. -/
theorem fuse_score32_unit_and_zero_scores_witness :
    (∃ y : ℚ, (fuse_score32 (exampleMatrix (XFloat.fin exampleTenth))
        [exampleTrack (XFloat.fin 1)]).coeff 0 0 = XFloat.fin y ∧
      |y - exampleTenth| ≤ 1 / 2 ^ 24) ∧
    (fuse_score32 (exampleMatrix (XFloat.fin exampleTenth))
      [exampleTrack (XFloat.fin 0)]).coeff 0 0 = XFloat.fin 1 :=
  ⟨(fuse_score32_unit_and_zero_scores (exampleMatrix (XFloat.fin exampleTenth))
      [exampleTrack (XFloat.fin 1)] rfl).1 (by simp [exampleTrack, Track.get_score]) 0 0
      exampleTenth (by decide) (by decide) rfl (by unfold exampleTenth; norm_num)
      (by unfold exampleTenth; norm_num),
    (fuse_score32_unit_and_zero_scores (exampleMatrix (XFloat.fin exampleTenth))
      [exampleTrack (XFloat.fin 0)] rfl).2 (by simp [exampleTrack, Track.get_score]) 0 0
      exampleTenth (by decide) (by decide) rfl exampleTenth_isBinary32⟩

/-- C22, as stated, fails: in binary32, with score `1.0`, the cost `0.2f` becomes
`0.199999988...`, which is below `0.2f`. -/
theorem fuse_score32_lowers_cost_counterexample :
    IsBinary32 exampleFifth ∧ 0 ≤ exampleFifth ∧ exampleFifth ≤ 1 ∧
    (fuse_score32 (exampleMatrix (XFloat.fin exampleFifth)) [exampleTrack (XFloat.fin 1)]).coeff
        0 0 = XFloat.fin (3355443 / 16777216) ∧
    XFloat.le (XFloat.fin exampleFifth) (XFloat.fin (3355443 / 16777216)) = false := by
  refine ⟨exampleFifth_isBinary32, by unfold exampleFifth; norm_num,
    by unfold exampleFifth; norm_num, ?_, ?_⟩
  · rw [fuse_score32_coeff _ _ 0 0 (by decide) (by decide)]
    exact fuse32_fifth
  · simp only [XFloat.le, decide_eq_false_iff_not, exampleFifth]
    norm_num

/-- C22, amended: in binary32, for an entry with prior cost `c` in `[0, 1]` and a
detection score `s` in `[0, 1]`, the cost written by `fuse_score` lies in `[0, 1]` and is
at least `c - 3 * 2^-25` (below `c` by rounding only); and for a binary32 cost `c <= 1`
it is non-increasing in the score: a detection of score `s2 >= s` in the same column
gives a cost that is at most the one obtained with `s`. -/
theorem fuse_score32_bounds_and_monotone (cost_matrix : CostMatrix)
    (detections detections2 : List Track) (i j : ℕ) (d d2 : Track) (c s s2 : ℚ)
    (hi : i < cost_matrix.rows) (hj : j < cost_matrix.cols)
    (hc : cost_matrix.coeff i j = XFloat.fin c)
    (hd : detections[j]? = some d) (hs : d.get_score = XFloat.fin s)
    (hd2 : detections2[j]? = some d2) (hs2 : d2.get_score = XFloat.fin s2) :
    (0 ≤ c → c ≤ 1 → 0 ≤ s → s ≤ 1 →
      ∃ y : ℚ, (fuse_score32 cost_matrix detections).coeff i j = XFloat.fin y ∧
        0 ≤ y ∧ y ≤ 1 ∧ c - 3 / 2 ^ 25 ≤ y) ∧
    (IsBinary32 c → c ≤ 1 → s ≤ s2 →
      XFloat.le ((fuse_score32 cost_matrix detections2).coeff i j)
        ((fuse_score32 cost_matrix detections).coeff i j) = true) := by
  refine ⟨fun hc0 hc1 hs0 hs1 => ?_, fun hb hc1 hss => ?_⟩
  · rw [fuse_score32_coeff _ _ i j hi hj, scoreAt_of_getElem? hd, hc, hs]
    exact fuse32_unit hc0 hc1 hs0 hs1
  · rw [fuse_score32_coeff _ _ i j hi hj, fuse_score32_coeff _ _ i j hi hj,
      scoreAt_of_getElem? hd, scoreAt_of_getElem? hd2, hc, hs, hs2]
    exact fuse32_antitone hb hc1 hss

/-- Witness for C22 (amended): the cost `0.2f` with the scores `0.1f` and `1.0`. -/
theorem fuse_score32_bounds_and_monotone_witness :
    (∃ y : ℚ, (fuse_score32 (exampleMatrix (XFloat.fin exampleFifth))
        [exampleTrack (XFloat.fin exampleTenth)]).coeff 0 0 = XFloat.fin y ∧
      0 ≤ y ∧ y ≤ 1 ∧ exampleFifth - 3 / 2 ^ 25 ≤ y) ∧
    XFloat.le
      ((fuse_score32 (exampleMatrix (XFloat.fin exampleFifth))
        [exampleTrack (XFloat.fin 1)]).coeff 0 0)
      ((fuse_score32 (exampleMatrix (XFloat.fin exampleFifth))
        [exampleTrack (XFloat.fin exampleTenth)]).coeff 0 0) = true :=
  ⟨(fuse_score32_bounds_and_monotone (exampleMatrix (XFloat.fin exampleFifth))
      [exampleTrack (XFloat.fin exampleTenth)] [exampleTrack (XFloat.fin 1)] 0 0
      (exampleTrack (XFloat.fin exampleTenth)) (exampleTrack (XFloat.fin 1))
      exampleFifth exampleTenth 1 (by decide) (by decide) rfl rfl rfl rfl rfl).1
      (by unfold exampleFifth; norm_num) (by unfold exampleFifth; norm_num)
      (by unfold exampleTenth; norm_num) (by unfold exampleTenth; norm_num),
    (fuse_score32_bounds_and_monotone (exampleMatrix (XFloat.fin exampleFifth))
      [exampleTrack (XFloat.fin exampleTenth)] [exampleTrack (XFloat.fin 1)] 0 0
      (exampleTrack (XFloat.fin exampleTenth)) (exampleTrack (XFloat.fin 1))
      exampleFifth exampleTenth 1 (by decide) (by decide) rfl rfl rfl rfl rfl).2
      exampleFifth_isBinary32 (by unfold exampleFifth; norm_num)
      (by unfold exampleTenth; norm_num)⟩

/-- C9, as stated, fails: the veto does not hold for every `lambda`.  In binary32, with
a gating distance above `chi2inv95[4]`: `lambda = 0` leaves `NaN` in the cell
(`0 * inf`); `lambda = 1` with an infinite gating distance leaves `NaN` (`0 * inf`);
`lambda = 3` with the gating distance `2^128 - 2^104` leaves `NaN` (`(1 - 3) * d`
overflows to `-inf`, and `inf + (-inf) = NaN`). -/
theorem fuse_motion32_veto_counterexample :
    XFloat.lt (XFloat.fin (gating_threshold false)) (XFloat.fin 100) = true ∧
    (fuse_motion32 (exampleGating (XFloat.fin 100)) (exampleMatrix (XFloat.fin 0.5))
        [exampleTrack (XFloat.fin 0.9)] [exampleTrack (XFloat.fin 0.9)] false
        (XFloat.fin 0)).coeff 0 0 = XFloat.nan ∧
    XFloat.lt (XFloat.fin (gating_threshold false)) XFloat.pinf = true ∧
    (fuse_motion32 (exampleGating XFloat.pinf) (exampleMatrix (XFloat.fin 0.5))
        [exampleTrack (XFloat.fin 0.9)] [exampleTrack (XFloat.fin 0.9)] false
        (XFloat.fin 1)).coeff 0 0 = XFloat.nan ∧
    XFloat.lt (XFloat.fin (gating_threshold false)) (XFloat.fin exampleMaxFloat) = true ∧
    (fuse_motion32 (exampleGating (XFloat.fin exampleMaxFloat)) (exampleMatrix (XFloat.fin 0.5))
        [exampleTrack (XFloat.fin 0.9)] [exampleTrack (XFloat.fin 0.9)] false
        (XFloat.fin 3)).coeff 0 0 = XFloat.nan := by
  have hgt : XFloat.lt (XFloat.fin (gating_threshold false)) (XFloat.fin 100) = true := by
    rw [gating_threshold_values.2]
    simp only [XFloat.lt, decide_eq_true_eq]
    norm_num
  have hgt2 : XFloat.lt (XFloat.fin (gating_threshold false)) XFloat.pinf = true := rfl
  have hgt3 :
      XFloat.lt (XFloat.fin (gating_threshold false)) (XFloat.fin exampleMaxFloat) = true := by
    rw [gating_threshold_values.2]
    simp only [XFloat.lt, decide_eq_true_eq, exampleMaxFloat]
    norm_num
  refine ⟨hgt, ?_, hgt2, ?_, hgt3, ?_⟩
  · rw [fuse_motion32_coeff _ _ _ _ _ _ (by decide) (by decide) 0 0 (XFloat.fin 100)
      (by decide) (exampleGating_row _ _ _), if_pos hgt]
    simp [XFloat.add32, XFloat.mul32, XFloat.round, XFloat.add_def, XFloat.mul_def, XFloat.add,
      XFloat.mul, XFloat.infMul]
  · rw [fuse_motion32_coeff _ _ _ _ _ _ (by decide) (by decide) 0 0 XFloat.pinf
      (by decide) (exampleGating_row _ _ _), if_pos hgt2, XFloat.sub32_fin, sub_self,
      round32_zero]
    simp [XFloat.add32, XFloat.mul32, XFloat.round, XFloat.add_def, XFloat.mul_def, XFloat.add,
      XFloat.mul, XFloat.infMul]
  · have h1 : round32 (1 - 3) = XFloat.fin (-2) := by
      refine round32_of_nearest32 ?_ (by norm_num [abs_lt])
      rw [nearest32_eq_of 1 (-(2 ^ 23)) (by norm_num) (by norm_num) (by norm_num)
        (by norm_num)]
      norm_num
    have h2 : round32 (-2 * exampleMaxFloat) = XFloat.ninf := by
      have hn : nearest32 (-2 * exampleMaxFloat) = -2 * exampleMaxFloat := by
        unfold exampleMaxFloat
        rw [nearest32_eq_of 128 (-(2 ^ 24 - 1)) (by norm_num) (by norm_num [abs_of_nonpos])
          (by norm_num [abs_of_nonpos]) (by norm_num)]
        norm_num
      unfold round32
      rw [hn, if_neg (by unfold exampleMaxFloat; norm_num),
        if_pos (by unfold exampleMaxFloat; norm_num)]
    rw [fuse_motion32_coeff _ _ _ _ _ _ (by decide) (by decide) 0 0 (XFloat.fin exampleMaxFloat)
      (by decide) (exampleGating_row _ _ _), if_pos hgt3, XFloat.sub32_fin, h1,
      XFloat.mul32_fin, h2]
    simp [XFloat.add32, XFloat.mul32, XFloat.round, XFloat.add_def, XFloat.mul_def, XFloat.add,
      XFloat.mul, XFloat.infMul]

/-- C9, amended: in binary32, in a call within bounds, for every binary32 `lambda` with
`0 < lambda < 1`, every prior cost and every track/detection pair whose gating distance
`d` (finite or `+infinity`) is strictly greater than the gating threshold
(`chi2inv95[4]`, or `chi2inv95[2]` with `only_position`), the cell written by
`fuse_motion` is `+infinity`. -/
theorem fuse_motion32_veto
    (gating_distance : KFStateSpaceVec XFloat → KFStateSpaceMatrix XFloat →
      List (DetVec XFloat) → Bool → List XFloat)
    (cost_matrix : CostMatrix) (tracks detections : List Track) (only_position : Bool)
    (lambda : ℚ) (i j : ℕ) (d : XFloat)
    (hb : FuseMotionInBounds gating_distance cost_matrix tracks detections only_position)
    (hi : i < cost_matrix.rows) (hj : j < cost_matrix.cols)
    (hd : (gatingRow gating_distance tracks detections only_position i)[j]? = some d)
    (hgt : XFloat.lt (XFloat.fin (gating_threshold only_position)) d = true)
    (hl : IsBinary32 lambda) (hl0 : 0 < lambda) (hl1 : lambda < 1) :
    (fuse_motion32 gating_distance cost_matrix tracks detections only_position
      (XFloat.fin lambda)).coeff i j = XFloat.pinf := by
  rw [fuse_motion32_coeff _ _ _ _ _ _ (by omega) (by omega) i j d (by rw [hb.1]; exact hi) hd,
    if_pos hgt]
  exact veto_blend32 (gating_threshold_pos only_position) hl0 hl1 hl d hgt

/-- Witness for C9 (amended): gating distance `100`, `lambda = 0.98f`: the cell becomes
`+infinity`. -/
theorem fuse_motion32_veto_witness :
    (fuse_motion32 (exampleGating (XFloat.fin 100)) (exampleMatrix (XFloat.fin 0.5))
        [exampleTrack (XFloat.fin 0.9)] [exampleTrack (XFloat.fin 0.9)] false
        (XFloat.fin exampleLambda)).coeff 0 0 = XFloat.pinf :=
  fuse_motion32_veto (exampleGating (XFloat.fin 100)) (exampleMatrix (XFloat.fin 0.5))
    [exampleTrack (XFloat.fin 0.9)] [exampleTrack (XFloat.fin 0.9)] false exampleLambda
    0 0 (XFloat.fin 100) (exampleGating_inBounds _ _ _ _) (by decide) (by decide)
    (exampleGating_row _ _ _)
    (by rw [gating_threshold_values.2]; simp only [XFloat.lt, decide_eq_true_eq]; norm_num)
    exampleLambda_isBinary32 (by unfold exampleLambda; norm_num)
    (by unfold exampleLambda; norm_num)

end Binary32

/-! ## Theorems: embedding distance, IoU fusion and assignment -/

section Association

/-- Writing back the value a cell already holds changes nothing. -/
theorem CostMatrix.set_self (cm : CostMatrix) (i j : ℕ) : cm.set i j (cm.coeff i j) = cm := by
  refine CostMatrix.eq_of_coeff rfl rfl (fun a b => ?_)
  simp only [CostMatrix.set]
  split
  · rename_i h; rw [h.1, h.2]
  · rfl

/-- A nested loop that rewrites every cell `(i, j)`, `i < n`, `j < m`, from its own
current value. -/
theorem foldl_range_grid (step : CostMatrix → ℕ → ℕ → CostMatrix)
    (g : ℕ → ℕ → XFloat → XFloat)
    (hstep : ∀ cm i j, step cm i j = cm.set i j (g i j (cm.coeff i j)))
    (n m : ℕ) (cm : CostMatrix) :
    (List.range n).foldl (fun cm i => (List.range m).foldl (fun cm j => step cm i j) cm) cm =
      { cm with coeff := fun a b =>
          (if a < n ∧ b < m then g a b (cm.coeff a b) else cm.coeff a b) } :=
  foldl_range_rows _ (fun _ => m) g
    (fun cm i => foldl_range_cols _ i (g i) (fun cm j => hstep cm i j) m cm) n cm

/-- Closed form of `fuse_iou_with_emb` when `emb_matrix` has positive area: the matrix
returned and the new content of `emb_matrix`. -/
theorem fuse_iou_with_emb_eq (iou_matrix emb_matrix : CostMatrix)
    (iou_threshold appearance_threshold : XFloat)
    (hr : emb_matrix.rows ≠ 0) (hc : emb_matrix.cols ≠ 0) :
    fuse_iou_with_emb iou_matrix emb_matrix iou_threshold appearance_threshold =
      ({ rows := iou_matrix.rows, cols := iou_matrix.cols, coeff := fun a b =>
          (if a < iou_matrix.rows ∧ b < iou_matrix.cols then
            XFloat.min (iou_matrix.coeff a b)
              (embAfterVeto iou_matrix emb_matrix iou_threshold appearance_threshold a b)
          else XFloat.fin 0) },
       { emb_matrix with
          coeff := embAfterVeto iou_matrix emb_matrix iou_threshold appearance_threshold }) := by
  unfold fuse_iou_with_emb
  rw [if_neg (by simp [hr, hc])]
  have h1 := foldl_range_grid
    (fun emb i j => if XFloat.lt (iou_matrix.coeff i j) iou_threshold then
      emb.set i j XFloat.pinf else emb)
    (fun i j c => if XFloat.lt (iou_matrix.coeff i j) iou_threshold then XFloat.pinf else c)
    (fun cm i j => by
      by_cases h : XFloat.lt (iou_matrix.coeff i j) iou_threshold = true
      · simp only [h, if_true]
      · simp only [h, if_false]; exact (CostMatrix.set_self cm i j).symm)
    iou_matrix.rows iou_matrix.cols emb_matrix
  simp only [h1]
  have h2 := fun (n m : ℕ) (e : CostMatrix) => foldl_range_grid
    (fun emb i j => if XFloat.lt appearance_threshold (emb.coeff i j) then
      emb.set i j XFloat.pinf else emb)
    (fun _ _ c => if XFloat.lt appearance_threshold c then XFloat.pinf else c)
    (fun cm i j => by
      by_cases h : XFloat.lt appearance_threshold (cm.coeff i j) = true
      · simp only [h, if_true]
      · simp only [h, if_false]; exact (CostMatrix.set_self cm i j).symm)
    n m e
  simp only [h2]
  have h3 := fun (f : ℕ → ℕ → XFloat) => foldl_range_grid
    (fun cm i j => cm.set i j (XFloat.min (iou_matrix.coeff i j) (f i j)))
    (fun i j _ => XFloat.min (iou_matrix.coeff i j) (f i j))
    (fun _ _ _ => rfl) iou_matrix.rows iou_matrix.cols
    (CostMatrix.zero iou_matrix.rows iou_matrix.cols)
  simp only [h3]
  rfl

/-- The entry `(i, j)` of the matrix returned by `fuse_iou_with_emb`. -/
theorem fuse_iou_with_emb_coeff (iou_matrix emb_matrix : CostMatrix)
    (iou_threshold appearance_threshold : XFloat)
    (hr : emb_matrix.rows ≠ 0) (hc : emb_matrix.cols ≠ 0) (i j : ℕ)
    (hi : i < iou_matrix.rows) (hj : j < iou_matrix.cols) :
    (fuse_iou_with_emb iou_matrix emb_matrix iou_threshold appearance_threshold).1.coeff i j
      = XFloat.min (iou_matrix.coeff i j)
          (embAfterVeto iou_matrix emb_matrix iou_threshold appearance_threshold i j) := by
  rw [fuse_iou_with_emb_eq _ _ _ _ hr hc]
  simp [hi, hj]

/-- C19 fails on the code: the first loop of `fuse_iou_with_emb` tests
`iou_matrix(i, j) < iou_threshold`, the opposite of its own comment.  With IoU distance
`0.9` larger than the threshold `0.5` and embedding distance `0.1`, the embedding
distance is not set to `+infinity` and the returned cost is `0.1`, not the IoU distance. -/
theorem fuse_iou_with_emb_keeps_far_pair :
    XFloat.lt (XFloat.fin 0.5) (XFloat.fin 0.9) = true ∧
    (fuse_iou_with_emb (exampleMatrix (XFloat.fin 0.9)) (exampleMatrix (XFloat.fin 0.1))
        (XFloat.fin 0.5) (XFloat.fin 0.25)).2.coeff 0 0 = XFloat.fin 0.1 ∧
    (fuse_iou_with_emb (exampleMatrix (XFloat.fin 0.9)) (exampleMatrix (XFloat.fin 0.1))
        (XFloat.fin 0.5) (XFloat.fin 0.25)).1.coeff 0 0 = XFloat.fin 0.1 := by
  have h1 : XFloat.lt (XFloat.fin 0.5) (XFloat.fin 0.9) = true := by
    simp only [XFloat.lt, decide_eq_true_eq]; norm_num
  have h2 : XFloat.lt (XFloat.fin 0.9) (XFloat.fin 0.5) = false := by
    simp only [XFloat.lt, decide_eq_false_iff_not]; norm_num
  have h3 : XFloat.lt (XFloat.fin 0.25) (XFloat.fin 0.1) = false := by
    simp only [XFloat.lt, decide_eq_false_iff_not]; norm_num
  have h4 : XFloat.lt (XFloat.fin 0.1) (XFloat.fin 0.9) = true := by
    simp only [XFloat.lt, decide_eq_true_eq]; norm_num
  have he : embAfterVeto (exampleMatrix (XFloat.fin 0.9)) (exampleMatrix (XFloat.fin 0.1))
      (XFloat.fin 0.5) (XFloat.fin 0.25) 0 0 = XFloat.fin 0.1 := by
    simp [embAfterVeto, exampleMatrix, h2, h3]
  refine ⟨h1, ?_, ?_⟩
  · rw [fuse_iou_with_emb_eq _ _ _ _ (by decide) (by decide)]
    exact he
  · rw [fuse_iou_with_emb_coeff _ _ _ _ (by decide) (by decide) 0 0 (by decide) (by decide),
      he]
    simp [exampleMatrix, XFloat.min, h4]

/-- The loop that appends the indices `0 .. n-1` to `unmatched_track_indices`. -/
theorem foldl_unmatched_track (n : ℕ) (a : AssociationData) :
    (List.range n).foldl (fun a i =>
      { a with unmatched_track_indices := a.unmatched_track_indices ++ [(i : ℤ)] }) a =
      { a with unmatched_track_indices :=
          a.unmatched_track_indices ++ (List.range n).map (fun i => (i : ℤ)) } := by
  induction n with
  | zero => simp
  | succ n ih =>
    rw [List.range_succ, List.foldl_append, ih]
    simp

/-- The loop that appends the indices `0 .. n-1` to `unmatched_det_indices`. -/
theorem foldl_unmatched_det (n : ℕ) (a : AssociationData) :
    (List.range n).foldl (fun a i =>
      { a with unmatched_det_indices := a.unmatched_det_indices ++ [(i : ℤ)] }) a =
      { a with unmatched_det_indices :=
          a.unmatched_det_indices ++ (List.range n).map (fun i => (i : ℤ)) } := by
  induction n with
  | zero => simp
  | succ n ih =>
    rw [List.range_succ, List.foldl_append, ih]
    simp

/-- C12: for a cost matrix with zero area and an initially empty result,
`linear_assignment` produces no matches, lists the row indices `0 .. rows-1` in
increasing order in `unmatched_track_indices` and the column indices `0 .. cols-1` in
increasing order in `unmatched_det_indices`; the solver is not called: the result is
the same for every solver, one that never returns included. -/
theorem linear_assignment_zero_area
    (lapjv : CostMatrix → Bool → XFloat → Option (List ℤ × List ℤ))
    (cost_matrix : CostMatrix) (thresh : XFloat)
    (h : cost_matrix.rows = 0 ∨ cost_matrix.cols = 0) :
    linear_assignment lapjv cost_matrix thresh
        { matches_ := [], unmatched_track_indices := [], unmatched_det_indices := [] } =
      some { matches_ := []
             unmatched_track_indices := (List.range cost_matrix.rows).map (fun i => (i : ℤ))
             unmatched_det_indices := (List.range cost_matrix.cols).map (fun i => (i : ℤ)) } := by
  unfold linear_assignment
  rw [if_pos (Nat.mul_eq_zero.mpr h)]
  simp only [foldl_unmatched_track, foldl_unmatched_det, List.nil_append]

/-- Witness for C12: a matrix with three rows and no column, and a solver that never
returns: rows `0, 1, 2` are unmatched tracks, and there is no unmatched detection. -/
theorem linear_assignment_zero_area_witness :
    linear_assignment (fun _ _ _ => none) { rows := 3, cols := 0, coeff := fun _ _ => XFloat.nan }
        (XFloat.fin 0.5)
        { matches_ := [], unmatched_track_indices := [], unmatched_det_indices := [] } =
      some { matches_ := [], unmatched_track_indices := [0, 1, 2], unmatched_det_indices := [] } :=
  linear_assignment_zero_area (fun _ _ _ => none)
    { rows := 3, cols := 0, coeff := fun _ _ => XFloat.nan } (XFloat.fin 0.5) (Or.inr rfl)

/-- The loop over `rowsol`: rows with a non-negative entry become matches, in order, the
others unmatched tracks. -/
theorem foldl_rowsol (rowsol : List ℤ) (n : ℕ) (a : AssociationData) :
    (List.range n).foldl (fun a i =>
        if 0 ≤ rowsol.getD i 0 then
          { a with matches_ := a.matches_ ++ [((i : ℤ), rowsol.getD i 0)] }
        else
          { a with unmatched_track_indices := a.unmatched_track_indices ++ [(i : ℤ)] }) a =
      { matches_ := a.matches_ ++
          ((List.range n).filter (fun i : ℕ => decide (0 ≤ rowsol.getD i 0))).map
            (fun i : ℕ => ((i : ℤ), rowsol.getD i 0))
        unmatched_track_indices := a.unmatched_track_indices ++
          ((List.range n).filter (fun i : ℕ => decide (¬ 0 ≤ rowsol.getD i 0))).map
            (fun i : ℕ => (i : ℤ))
        unmatched_det_indices := a.unmatched_det_indices } := by
  induction n with
  | zero => simp
  | succ n ih =>
    rw [List.range_succ, List.foldl_append, ih]
    by_cases h : 0 ≤ rowsol.getD n 0
    · have h1 : 0 ≤ rowsol[n]?.getD 0 := by simpa using h
      simp [List.filter_append, h1]
    · have h1 : rowsol[n]?.getD 0 < 0 := by simpa using h
      simp [List.filter_append, h1, not_le.mpr h1]

/-- The loop over `colsol`: columns with a negative entry become unmatched detections. -/
theorem foldl_colsol (colsol : List ℤ) (n : ℕ) (a : AssociationData) :
    (List.range n).foldl (fun a i =>
        if colsol.getD i 0 < 0 then
          { a with unmatched_det_indices := a.unmatched_det_indices ++ [(i : ℤ)] }
        else a) a =
      { a with
        unmatched_det_indices := a.unmatched_det_indices ++
          ((List.range n).filter (fun i : ℕ => decide (colsol.getD i 0 < 0))).map
            (fun i : ℕ => (i : ℤ)) } := by
  induction n with
  | zero => simp
  | succ n ih =>
    rw [List.range_succ, List.foldl_append, ih]
    by_cases h : colsol.getD n 0 < 0
    · have h1 : colsol[n]?.getD 0 < 0 := by simpa using h
      simp [List.filter_append, h1]
    · have h1 : 0 ≤ colsol[n]?.getD 0 := by simpa using h
      simp [List.filter_append, h1, not_lt.mpr h1]

/-- Closed form of `linear_assignment` on a matrix of positive area, for a solver call
that returns `rowsol` and `colsol`. -/
theorem linear_assignment_eq
    (lapjv : CostMatrix → Bool → XFloat → Option (List ℤ × List ℤ))
    (cost_matrix : CostMatrix) (thresh : XFloat) (rowsol colsol : List ℤ)
    (hne : cost_matrix.rows * cost_matrix.cols ≠ 0)
    (hsol : lapjv cost_matrix true thresh = some (rowsol, colsol)) :
    linear_assignment lapjv cost_matrix thresh
        { matches_ := [], unmatched_track_indices := [], unmatched_det_indices := [] } =
      some
        { matches_ :=
            ((List.range rowsol.length).filter (fun i : ℕ => decide (0 ≤ rowsol.getD i 0))).map
              (fun i : ℕ => ((i : ℤ), rowsol.getD i 0))
          unmatched_track_indices :=
            ((List.range rowsol.length).filter (fun i : ℕ => decide (¬ 0 ≤ rowsol.getD i 0))).map
              (fun i : ℕ => (i : ℤ))
          unmatched_det_indices :=
            ((List.range colsol.length).filter (fun i : ℕ => decide (colsol.getD i 0 < 0))).map
              (fun i : ℕ => (i : ℤ)) } := by
  unfold linear_assignment
  rw [if_neg hne, hsol]
  simp only [foldl_rowsol, foldl_colsol, List.nil_append]

/-- In a list without repetition, a predicate that holds for exactly one member is
counted once. -/
theorem countP_eq_one_of_unique {β : Type} (p : β → Bool) (l : List β) (hl : l.Nodup) (x : β)
    (hx : x ∈ l) (hp : p x = true) (huniq : ∀ y ∈ l, p y = true → y = x) :
    l.countP p = 1 := by
  induction l with
  | nil => exact absurd hx (List.not_mem_nil _)
  | cons y ys ih =>
    rw [List.nodup_cons] at hl
    rw [List.countP_cons]
    rcases List.mem_cons.mp hx with hxy | hxy
    · subst hxy
      have hz : ys.countP p = 0 := by
        rw [List.countP_eq_zero]
        intro z hz hpz
        have := huniq z (List.mem_cons_of_mem _ hz) (by simpa using hpz)
        subst this
        exact hl.1 hz
      simp [hz, hp]
    · have hy : p y ≠ true := by
        intro hpy
        have := huniq y (List.mem_cons_self _ _) hpy
        subst this
        exact hl.1 hxy
      have := ih hl.2 hxy (fun z hz hpz => huniq z (List.mem_cons_of_mem _ hz) hpz)
      simp [this, hy]

/-- Counting a value in the image of a filtered list. -/
theorem count_map_filter (l : List ℕ) (q : ℕ → Bool) (f : ℕ → ℤ) (v : ℤ) :
    ((l.filter q).map f).count v = l.countP (fun k => decide (f k = v) && q k) := by
  rw [List.count_eq_countP, List.countP_map, List.countP_filter]
  congr 1

/-- Reading a vector of `int` within its bounds. -/
theorem getD_of_lt (l : List ℤ) (i : ℕ) (h : i < l.length) : l[i]? = some (l.getD i 0) := by
  rw [List.getD_eq_getElem?_getD, List.getElem?_eq_getElem h]
  rfl

/-- Counting the index `i` itself among `0 .. n-1`, under a side condition `q`. -/
theorem countP_index (q : ℕ → Bool) (n i : ℕ) (hi : i < n) :
    List.countP (fun k : ℕ => decide ((k : ℤ) = (i : ℤ)) && q k) (List.range n)
      = if q i = true then 1 else 0 := by
  by_cases hq : q i = true
  · rw [if_pos hq]
    refine countP_eq_one_of_unique _ _ (List.nodup_range _) i (List.mem_range.mpr hi) ?_ ?_
    · simp [hq]
    · intro y _ hy
      simp only [Bool.and_eq_true, decide_eq_true_eq, Nat.cast_inj] at hy
      exact hy.1
  · rw [if_neg hq]
    refine List.countP_eq_zero.mpr (fun y _ hy => ?_)
    simp only [Bool.and_eq_true, decide_eq_true_eq, Nat.cast_inj] at hy
    obtain ⟨rfl, h2⟩ := hy
    exact hq h2

/-- C13: for a non-empty `N x M` cost matrix, an initially empty result and a solver that
returns a row solution of length `N` and a column solution of length `M` that are
mutually consistent (`rowsol[i] = j` for a column `j` exactly when `colsol[j] = i`),
`linear_assignment` partitions the indices: every pair in `matches` is a row index
with its `rowsol` entry, a column index; every row index `0 .. N-1` occurs exactly
once, as the first component of a match or in `unmatched_track_indices`; every column
index `0 .. M-1` occurs exactly once, as the second component of a match or in
`unmatched_det_indices`. -/
theorem linear_assignment_partition
    (lapjv : CostMatrix → Bool → XFloat → Option (List ℤ × List ℤ))
    (cost_matrix : CostMatrix) (thresh : XFloat) (rowsol colsol : List ℤ)
    (hne : cost_matrix.rows * cost_matrix.cols ≠ 0)
    (hsol : lapjv cost_matrix true thresh = some (rowsol, colsol))
    (hN : rowsol.length = cost_matrix.rows) (hM : colsol.length = cost_matrix.cols)
    (hcons : ∀ i j : ℕ, rowsol[i]? = some (j : ℤ) ↔ colsol[j]? = some (i : ℤ)) :
    ∃ a, linear_assignment lapjv cost_matrix thresh
        { matches_ := [], unmatched_track_indices := [], unmatched_det_indices := [] } = some a ∧
      (∀ p ∈ a.matches_, ∃ i j : ℕ, i < cost_matrix.rows ∧ j < cost_matrix.cols ∧
        p = ((i : ℤ), (j : ℤ)) ∧ rowsol[i]? = some (j : ℤ)) ∧
      (∀ x ∈ a.unmatched_track_indices, ∃ i : ℕ, i < cost_matrix.rows ∧ x = (i : ℤ)) ∧
      (∀ x ∈ a.unmatched_det_indices, ∃ j : ℕ, j < cost_matrix.cols ∧ x = (j : ℤ)) ∧
      (∀ i : ℕ, i < cost_matrix.rows →
        (a.matches_.map Prod.fst).count (i : ℤ) + a.unmatched_track_indices.count (i : ℤ) = 1) ∧
      (∀ j : ℕ, j < cost_matrix.cols →
        (a.matches_.map Prod.snd).count (j : ℤ) + a.unmatched_det_indices.count (j : ℤ) = 1) := by
  refine ⟨_, linear_assignment_eq lapjv cost_matrix thresh rowsol colsol hne hsol, ?_, ?_, ?_,
    ?_, ?_⟩
  · intro p hp
    simp only [List.mem_map, List.mem_filter, List.mem_range, decide_eq_true_eq] at hp
    obtain ⟨i, ⟨hi, hnn⟩, rfl⟩ := hp
    have hri := getD_of_lt rowsol i hi
    rw [← Int.toNat_of_nonneg hnn] at hri
    have hcj := (hcons i _).mp hri
    obtain ⟨hj, _⟩ := List.getElem?_eq_some_iff.mp hcj
    exact ⟨i, (rowsol.getD i 0).toNat, hN ▸ hi, hM ▸ hj,
      by rw [Int.toNat_of_nonneg hnn], hri⟩
  · intro x hx
    simp only [List.mem_map, List.mem_filter, List.mem_range, decide_eq_true_eq] at hx
    obtain ⟨i, ⟨hi, _⟩, rfl⟩ := hx
    exact ⟨i, hN ▸ hi, rfl⟩
  · intro x hx
    simp only [List.mem_map, List.mem_filter, List.mem_range, decide_eq_true_eq] at hx
    obtain ⟨j, ⟨hj, _⟩, rfl⟩ := hx
    exact ⟨j, hM ▸ hj, rfl⟩
  · intro i hi
    have hi2 : i < rowsol.length := hN ▸ hi
    simp only [List.map_map]
    rw [count_map_filter _ _ (Prod.fst ∘ fun i : ℕ => ((i : ℤ), rowsol.getD i 0)),
      count_map_filter]
    simp only [Function.comp]
    rw [countP_index _ _ _ hi2, countP_index _ _ _ hi2]
    by_cases hnn : 0 ≤ rowsol.getD i 0
    · simp [hnn, -List.getD_eq_getElem?_getD]
    · simp [hnn, not_le.mp hnn, -List.getD_eq_getElem?_getD]
  · intro j hj
    have hj2 : j < colsol.length := hM ▸ hj
    have hcj := getD_of_lt colsol j hj2
    simp only [List.map_map]
    rw [count_map_filter _ _ (Prod.snd ∘ fun i : ℕ => ((i : ℤ), rowsol.getD i 0)),
      count_map_filter]
    simp only [Function.comp]
    rw [countP_index _ _ _ hj2]
    have hrow : ∀ k, k ∈ List.range rowsol.length → rowsol.getD k 0 = (j : ℤ) →
        colsol.getD j 0 = (k : ℤ) := by
      intro k hk hy
      have hrk := getD_of_lt rowsol k (List.mem_range.mp hk)
      rw [hy] at hrk
      have h2 := (hcons k j).mp hrk
      rw [hcj] at h2
      exact Option.some.inj h2
    by_cases hneg : colsol.getD j 0 < 0
    · have c0 : List.countP (fun k : ℕ => decide (rowsol.getD k 0 = (j : ℤ))
          && decide (0 ≤ rowsol.getD k 0)) (List.range rowsol.length) = 0 :=
        List.countP_eq_zero.mpr (fun k hk hy => by
          simp only [Bool.and_eq_true, decide_eq_true_eq] at hy
          have h3 := hrow k hk hy.1
          omega)
      rw [c0]
      simp [hneg, -List.getD_eq_getElem?_getD]
    · have hnn : 0 ≤ colsol.getD j 0 := not_lt.mp hneg
      have hcj2 : colsol[j]? = some (((colsol.getD j 0).toNat : ℕ) : ℤ) := by
        rw [Int.toNat_of_nonneg hnn]
        exact hcj
      have hrk := (hcons _ j).mpr hcj2
      obtain ⟨hk0, _⟩ := List.getElem?_eq_some_iff.mp hrk
      have hrk2 := getD_of_lt rowsol _ hk0
      rw [hrk] at hrk2
      have hrv : rowsol.getD (colsol.getD j 0).toNat 0 = (j : ℤ) := (Option.some.inj hrk2).symm
      have c1 : List.countP (fun k : ℕ => decide (rowsol.getD k 0 = (j : ℤ))
          && decide (0 ≤ rowsol.getD k 0)) (List.range rowsol.length) = 1 :=
        countP_eq_one_of_unique _ _ (List.nodup_range _) (colsol.getD j 0).toNat
          (List.mem_range.mpr hk0)
          (by
            simp only [Bool.and_eq_true, decide_eq_true_eq]
            exact ⟨hrv, by rw [hrv]; exact Int.natCast_nonneg j⟩)
          (fun k hk hy => by
            simp only [Bool.and_eq_true, decide_eq_true_eq] at hy
            have h3 := hrow k hk hy.1
            omega)
      rw [c1]
      simp [hneg, -List.getD_eq_getElem?_getD]

/-- Witness for C13: a 2 x 2 matrix and the solution `rowsol = [1, -1]`,
`colsol = [-1, 0]`: track 0 is matched with detection 1, track 1 and detection 0 are
unmatched. -/
theorem linear_assignment_partition_witness :
    linear_assignment (exampleSolver [1, -1] [-1, 0])
        { rows := 2, cols := 2, coeff := fun _ _ => XFloat.fin 0.5 } (XFloat.fin 0.7)
        { matches_ := [], unmatched_track_indices := [], unmatched_det_indices := [] } =
      some { matches_ := [(0, 1)], unmatched_track_indices := [1],
             unmatched_det_indices := [0] } ∧
    ∃ a, linear_assignment (exampleSolver [1, -1] [-1, 0])
        { rows := 2, cols := 2, coeff := fun _ _ => XFloat.fin 0.5 } (XFloat.fin 0.7)
        { matches_ := [], unmatched_track_indices := [], unmatched_det_indices := [] } = some a ∧
      (∀ i : ℕ, i < 2 →
        (a.matches_.map Prod.fst).count (i : ℤ) + a.unmatched_track_indices.count (i : ℤ) = 1) ∧
      (∀ j : ℕ, j < 2 →
        (a.matches_.map Prod.snd).count (j : ℤ) + a.unmatched_det_indices.count (j : ℤ) = 1) := by
  refine ⟨rfl, ?_⟩
  obtain ⟨a, ha, _, _, _, h4, h5⟩ := linear_assignment_partition (exampleSolver [1, -1] [-1, 0])
    { rows := 2, cols := 2, coeff := fun _ _ => XFloat.fin 0.5 } (XFloat.fin 0.7) [1, -1] [-1, 0]
    (by decide) rfl rfl rfl
    (by
      intro i j
      rcases i with _ | _ | i <;> rcases j with _ | _ | j <;> simp <;> omega)
  exact ⟨a, ha, h4, h5⟩

/-- The measurements that `fuse_motion` hands to `gating_distance`. -/
theorem gatingRow_eq
    (gating_distance : KFStateSpaceVec XFloat → KFStateSpaceMatrix XFloat →
      List (DetVec XFloat) → Bool → List XFloat)
    (tracks detections : List Track) (only_position : Bool) (i : ℕ) :
    gatingRow gating_distance tracks detections only_position i =
      gating_distance (tracks.getD i default).mean (tracks.getD i default).covariance
        (fuseMotionMeasurements detections) only_position := rfl

/-- C20 fails on the code: `fuse_motion` copies the four components of `get_tlwh()` into
the measurement without converting them to center form.  For the detection with
`tlwh = (11, 11, 20, 20)` the measurement handed to `gating_distance` is
`(11, 11, 20, 20)`, while the box in the measurement space of the filter is
`(21, 21, 20, 20)`. -/
theorem fuse_motion_measurement_is_tlwh
    (gating_distance : KFStateSpaceVec XFloat → KFStateSpaceMatrix XFloat →
      List (DetVec XFloat) → Bool → List XFloat)
    (tracks : List Track) (only_position : Bool) (i : ℕ) (score : XFloat) :
    gatingRow gating_distance tracks [exampleTrack score] only_position i =
      gating_distance (tracks.getD i default).mean (tracks.getD i default).covariance
        [![XFloat.fin 11, XFloat.fin 11, XFloat.fin 20, XFloat.fin 20]] only_position ∧
    xywhOfTlwh (exampleTrack score).get_tlwh
      = ![XFloat.fin 21, XFloat.fin 21, XFloat.fin 20, XFloat.fin 20] ∧
    (![XFloat.fin 11, XFloat.fin 11, XFloat.fin 20, XFloat.fin 20] : DetVec XFloat)
      ≠ xywhOfTlwh (exampleTrack score).get_tlwh := by
  have h2 : xywhOfTlwh (exampleTrack score).get_tlwh
      = ![XFloat.fin 21, XFloat.fin 21, XFloat.fin 20, XFloat.fin 20] := by
    funext k
    fin_cases k <;> simp [xywhOfTlwh, exampleTrack, Track.get_tlwh] <;> norm_num
  refine ⟨?_, h2, ?_⟩
  · rw [gatingRow_eq]
    congr 1
  · rw [h2]
    intro h
    have h0 := congrFun h 0
    simp at h0

end Association

end BoTSORT
